import Mathlib

/-!
# ComposeKit image-update engine: a verification development

Shallow embedding of the image-update resolution engine of ComposeKit
(`src/composekit/update.py` and `src/composekit/utils/oci_api.py`), together
with theorems settling the specification claims about it.

Conventions:
* Python/YAML/JSON values are modelled by the inductive `YVal`; Python
  truthiness by `YVal.truthy`.
* Machine-level string operations (`str.split`, `str.strip`, ...) are
  re-implemented on `List Char` so that every definition reduces inside the
  kernel; `String` is used at the interfaces.
* The third-party `packaging.version.Version` class (a dependency of
  `update.py`, not part of the repository) is modelled by `PV` together with
  `pep440Parse` (its PEP 440 grammar) and the comparison key `cmpkey`.
* Network calls are modelled by oracles: `httpx` by a function
  `Request → Response`, and — at the `update.py` level — the tag-listing
  call by a function returning `Option (List String)` (`none` = raised
  exception).
-/

/-- Python/YAML/JSON value (the shapes `yaml.safe_load` / `response.json()`
produce). -/
inductive YVal where
  | null : YVal
  | bool : Bool → YVal
  | int : Int → YVal
  | str : String → YVal
  | list : List YVal → YVal
  | dict : List (String × YVal) → YVal

/-- Python truthiness (`bool(v)`) for `YVal`. -/
def YVal.truthy : YVal → Bool
  | .null => false
  | .bool b => b
  | .int n => n != 0
  | .str s => s != ""
  | .list xs => !xs.isEmpty
  | .dict es => !es.isEmpty

/-- First-match association-list lookup: Python `dict.get(k)` for dicts
represented as key/value lists (keys unique in every dict produced by the
sources). -/
def dictGet (es : List (String × YVal)) (k : String) : Option YVal :=
  match es with
  | [] => none
  | (k', v) :: rest => if k' = k then some v else dictGet rest k

/-- Python `d[k] = v` on an association list: replace the value in place at
the first occurrence of the key, else append the new pair. -/
def dictSet (es : List (String × YVal)) (k : String) (v : YVal) :
    List (String × YVal) :=
  match es with
  | [] => [(k, v)]
  | (k', v') :: rest =>
    if k' = k then (k, v) :: rest else (k', v') :: dictSet rest k v

/-- Python `d.pop(k, None)`, the removal part: drop every binding of `k`
(at most one in a real dict). -/
def dictRemove (es : List (String × YVal)) (k : String) :
    List (String × YVal) :=
  es.filter (fun kv => kv.1 ≠ k)

/-- Python's `or` on optional values: the first operand when it is present
and truthy, otherwise the second operand unconditionally. -/
def pyOr (a b : Option YVal) : Option YVal :=
  match a with
  | some v => if v.truthy then some v else b
  | none => b

/-- The characters Python's `str.strip()` / the `\s` regex class remove
(ASCII fragment). -/
def isPySpace (c : Char) : Bool :=
  c = ' ' ∨ c = '\t' ∨ c = '\n' ∨ c = '\r' ∨ c = '\x0b' ∨ c = '\x0c'

/-- Remove trailing characters satisfying `p` (helper for `strip`). -/
def dropTrailing (p : Char → Bool) (cs : List Char) : List Char :=
  cs.foldr (fun c acc => if acc.isEmpty && p c then [] else c :: acc) []

/-- Python `str.strip()` restricted to a character predicate. -/
def pyStripP (p : Char → Bool) (cs : List Char) : List Char :=
  dropTrailing p (cs.dropWhile p)

/-- Python `str.strip()` (whitespace, both ends). -/
def pyStrip (cs : List Char) : List Char := pyStripP isPySpace cs

/-- Python `str.split(sep)` for a one-character separator (as used by the
sources: `":"`, `"/"`, `","`). `"".split(c) = [""]`. -/
def pySplit (sep : Char) (cs : List Char) : List (List Char) :=
  cs.foldr
    (fun c acc =>
      match acc with
      | g :: gs => if c = sep then [] :: g :: gs else (c :: g) :: gs
      | [] => [[c]])
    [[]]

/-- Python `str.split(sep, 1)` for a one-character separator: the part
before the first occurrence and the rest, or `none` when the separator is
absent (`"=" not in p`). -/
def pySplitOnce (sep : Char) : List Char → Option (List Char × List Char)
  | [] => none
  | c :: rest =>
    if c = sep then some ([], rest)
    else match pySplitOnce sep rest with
      | some (l, r) => some (c :: l, r)
      | none => none

/-- `sep in s` for a one-character needle. -/
def pyContains (cs : List Char) (sep : Char) : Bool := cs.contains sep

/-- Python `str.upper()` (ASCII). -/
def pyUpper (s : String) : String := ⟨s.data.map Char.toUpper⟩

/-- Python `str.lower()` (ASCII). -/
def pyLower (s : String) : String := ⟨s.data.map Char.toLower⟩

/-- `int(s)` for a decimal literal: optional sign and a nonempty digit run,
surrounded by optional whitespace; `none` when Python would raise
`ValueError`. -/
def pyParseInt (s : String) : Option Int :=
  let cs := pyStrip s.data
  let (neg, ds) :=
    match cs with
    | '-' :: rest => (true, rest)
    | '+' :: rest => (false, rest)
    | _ => (false, cs)
  if ds.isEmpty || !ds.all Char.isDigit then none
  else
    let n : Nat := ds.foldl (fun a c => a * 10 + (c.toNat - 48)) 0
    some (if neg then -(n : Int) else (n : Int))

/-- `int(v)` on a scalar `YVal`.  A string goes through the decimal parse;
`none` models the `TypeError`/`ValueError` the source would raise. -/
def pyIntY : YVal → Option Int
  | .int n => some n
  | .bool b => some (if b then 1 else 0)
  | .str s => pyParseInt s
  | _ => none

/-! ## The `packaging.version.Version` dependency (PEP 440)

`update.py` imports `Version`/`InvalidVersion` from the third-party
`packaging` library.  The model below reproduces that library's anchored
`VERSION_PATTERN` grammar (case-insensitive, surrounding whitespace allowed),
its letter normalisation (`alpha → a`, `beta → b`,
`c`/`pre`/`preview → rc`, `rev`/`r` → post) and its comparison key
`_cmpkey`.  Pre-release letters are encoded order-preservingly as numbers
(`a = 0 < b = 1 < rc = 2`). -/

/-- One segment of a PEP 440 local version: numeric segments compare as
numbers and above alphanumeric ones. -/
inductive LocalSeg where
  | num : Nat → LocalSeg
  | str : List Char → LocalSeg
  deriving DecidableEq

/-- A parsed PEP 440 version (`packaging.version.Version`):
`pre` holds the normalised pre-release letter code and number. -/
structure PV where
  epoch : Nat
  release : List Nat
  pre : Option (Nat × Nat)
  post : Option Nat
  dev : Option Nat
  loc : Option (List LocalSeg)
  deriving DecidableEq

/-- `[-_.]`, the separators the PEP 440 grammar tolerates between parts. -/
def sepChar (c : Char) : Bool := c = '-' || c = '_' || c = '.'

/-- Longest leading digit run. -/
def takeDigits : List Char → List Char × List Char
  | [] => ([], [])
  | c :: cs =>
    if c.isDigit then
      let (d, r) := takeDigits cs
      (c :: d, r)
    else ([], c :: cs)

/-- Decimal value of a digit run. -/
def digitsToNat (ds : List Char) : Nat :=
  ds.foldl (fun a c => a * 10 + (c.toNat - 48)) 0

/-- `[a-z0-9]` (the input is lowercased before parsing). -/
def isAlnumLower (c : Char) : Bool := c.isDigit || ('a' ≤ c && c ≤ 'z')

/-- Longest leading `[a-z0-9]` run. -/
def takeAlnum : List Char → List Char × List Char
  | [] => ([], [])
  | c :: cs =>
    if isAlnumLower c then
      let (d, r) := takeAlnum cs
      (c :: d, r)
    else ([], c :: cs)

/-- First literal of the alternation that prefixes the input (literals are
listed longest first, which for this grammar agrees with the regex's
backtracking) paired with its normalised code. -/
def matchFirstLit (lits : List (List Char × Nat)) (cs : List Char) :
    Option (Nat × List Char) :=
  match lits with
  | [] => none
  | (lit, code) :: rest =>
    if lit.isPrefixOf cs then some (code, cs.drop lit.length)
    else matchFirstLit rest cs

/-- A `[-_.]? letter [-_.]? number?` unit (pre/post/dev grammar); rolled
back entirely when the letter is absent.  A missing number defaults to 0
(`_parse_letter_version`). -/
def parseLetterUnit (lits : List (List Char × Nat)) (cs : List Char) :
    Option ((Nat × Nat) × List Char) :=
  let cs1 := match cs with
    | c :: rest => if sepChar c then rest else c :: rest
    | [] => []
  match matchFirstLit lits cs1 with
  | none => none
  | some (code, cs2) =>
    let cs3 := match cs2 with
      | c :: rest => if sepChar c then rest else c :: rest
      | [] => []
    let (ds, cs4) := takeDigits cs3
    some ((code, digitsToNat ds), cs4)

/-- Pre-release letters, longest first, with their normalised codes. -/
def preLits : List (List Char × Nat) :=
  [("preview".data, 2), ("alpha".data, 0), ("beta".data, 1),
   ("pre".data, 2), ("rc".data, 2), ("a".data, 0), ("b".data, 1),
   ("c".data, 2)]

/-- Post-release letters, longest first (all normalise to `post`). -/
def postLits : List (List Char × Nat) :=
  [("post".data, 0), ("rev".data, 0), ("r".data, 0)]

/-- Dev-release letter. -/
def devLits : List (List Char × Nat) := [("dev".data, 0)]

/-- `(\.[0-9]+)*` — the dotted tail of the release segment (`fuel` bounds
the recursion; it is instantiated with the input length, which suffices). -/
def parseRelTail : Nat → List Char → List Nat × List Char
  | 0, cs => ([], cs)
  | fuel + 1, cs =>
    match cs with
    | '.' :: c :: rest =>
      if c.isDigit then
        let (ds, r) := takeDigits (c :: rest)
        let (ns, r') := parseRelTail fuel r
        (digitsToNat ds :: ns, r')
      else ([], '.' :: c :: rest)
    | cs => ([], cs)

/-- The optional pre-release unit. -/
def parsePre (cs : List Char) : Option (Nat × Nat) × List Char :=
  match parseLetterUnit preLits cs with
  | some (p, cs') => (some p, cs')
  | none => (none, cs)

/-- The optional post-release unit: either `-N` or a letter unit. -/
def parsePost (cs : List Char) : Option Nat × List Char :=
  let letterForm :=
    match parseLetterUnit postLits cs with
    | some ((_, n), cs') => (some n, cs')
    | none => (none, cs)
  match cs with
  | '-' :: rest =>
    let (ds, cs') := takeDigits rest
    if ds.isEmpty then letterForm else (some (digitsToNat ds), cs')
  | _ => letterForm

/-- The optional dev-release unit. -/
def parseDev (cs : List Char) : Option Nat × List Char :=
  match parseLetterUnit devLits cs with
  | some ((_, n), cs') => (some n, cs')
  | none => (none, cs)

/-- Numeric local segments become numbers (`part.isdigit()`), others stay
alphanumeric strings. -/
def mkLocalSeg (seg : List Char) : LocalSeg :=
  if seg.all Char.isDigit then .num (digitsToNat seg) else .str seg

/-- `([-_.][a-z0-9]+)*` — the tail of the local version. -/
def parseLocalSegs : Nat → List Char → List LocalSeg × List Char
  | 0, cs => ([], cs)
  | fuel + 1, cs =>
    match cs with
    | c :: c2 :: rest =>
      if sepChar c && isAlnumLower c2 then
        let (seg, cs') := takeAlnum (c2 :: rest)
        let (segs, cs'') := parseLocalSegs fuel cs'
        (mkLocalSeg seg :: segs, cs'')
      else ([], c :: c2 :: rest)
    | cs => ([], cs)

/-- The optional `+local` part; `none` when a `+` is present but not
followed by a well-formed local version (the whole parse then fails). -/
def parseLocal (cs : List Char) : Option (Option (List LocalSeg) × List Char) :=
  match cs with
  | '+' :: rest =>
    let (seg1, cs1) := takeAlnum rest
    if seg1.isEmpty then none
    else
      let (segs, cs2) := parseLocalSegs cs1.length cs1
      some (some (mkLocalSeg seg1 :: segs), cs2)
  | cs => some (none, cs)

/-- The optional leading `v?` of the version grammar. -/
def stripV (cs : List Char) : List Char :=
  match cs with
  | c :: rest => if c = 'v' then rest else c :: rest
  | [] => []

/-- The anchored PEP 440 grammar on a lowercased, whitespace-stripped
character list: optional `v`, optional epoch `N!`, dotted release, then the
optional pre/post/dev/local parts; anything left over is a parse error. -/
def pep440Core (cs : List Char) : Option PV :=
  let cs0 := stripV cs
  let (d1, r1) := takeDigits cs0
  if d1.isEmpty then none
  else
    let (epoch, relFirst, r2) :=
      match r1 with
      | '!' :: rest =>
        let (d2, r2) := takeDigits rest
        (digitsToNat d1, d2, r2)
      | r1 => (0, d1, r1)
    if relFirst.isEmpty then none
    else
      let (relTail, r3) := parseRelTail r2.length r2
      let (pre, r4) := parsePre r3
      let (post, r5) := parsePost r4
      let (dev, r6) := parseDev r5
      match parseLocal r6 with
      | none => none
      | some (loc, r7) =>
        if r7.isEmpty then
          some ⟨epoch, digitsToNat relFirst :: relTail, pre, post, dev, loc⟩
        else none

/-- `Version(s)`: strip surrounding whitespace, lowercase (the regex is
case-insensitive and all letters are normalised to lowercase), parse. -/
def pep440Parse (s : String) : Option PV :=
  pep440Core (pyStrip (s.data.map Char.toLower))

/-- `Version.is_prerelease`: a dev or pre part is present. -/
def PV.isPrerelease (v : PV) : Bool := v.pre.isSome || v.dev.isSome

/-! ### The comparison key (`packaging.version._cmpkey`)

Each component is mapped into a type that already carries a linear order:
`⊥`/`⊤` play `NegativeInfinity`/`Infinity`, `Lex` products and lists play
Python tuple comparison. -/

/-- Key of the pre part: `⊥` for a dev-only release, `⊤` when absent
otherwise, else the (letter code, number) pair. -/
abbrev PreKey := WithBot (WithTop (Lex (Nat × Nat)))

/-- Key of the post part: `⊥` when absent. -/
abbrev PostKey := WithBot Nat

/-- Key of the dev part: `⊤` when absent. -/
abbrev DevKey := WithTop Nat

/-- Key of one local segment: numeric segments are `(n, "")`, string
segments `(⊥, s)`. -/
abbrev LocalSegKey := Lex (WithBot Nat × List Char)

/-- Key of the local part: `⊥` when absent. -/
abbrev LocalKey := WithBot (List LocalSegKey)

/-- The full comparison key type, ordered lexicographically. -/
abbrev VKey :=
  Lex (Nat × Lex (List Nat × Lex (PreKey × Lex (PostKey × Lex (DevKey × LocalKey)))))

/-- The release tuple with trailing zeros removed. -/
def releaseKey (r : List Nat) : List Nat :=
  (r.reverse.dropWhile (· = 0)).reverse

/-- Pre-part key (see `PreKey`). -/
def preKey (v : PV) : PreKey :=
  match v.pre with
  | some (l, n) => some (some (toLex (l, n)))
  | none =>
    match v.post, v.dev with
    | none, some _ => ⊥
    | _, _ => some ⊤

/-- Post-part key. -/
def postKey (v : PV) : PostKey :=
  match v.post with
  | none => ⊥
  | some n => some n

/-- Dev-part key. -/
def devKey (v : PV) : DevKey :=
  match v.dev with
  | none => ⊤
  | some n => some n

/-- Local-segment key. -/
def localSegKey : LocalSeg → LocalSegKey
  | .num n => toLex (some n, [])
  | .str s => toLex (⊥, s)

/-- Local-part key. -/
def localKey (v : PV) : LocalKey :=
  match v.loc with
  | none => ⊥
  | some segs => some (segs.map localSegKey)

/-- `Version._cmpkey`, assembled into `VKey`. -/
def cmpkey (v : PV) : VKey :=
  toLex (v.epoch, toLex (releaseKey v.release,
    toLex (preKey v, toLex (postKey v, toLex (devKey v, localKey v)))))

/-- `a < b` on versions (`Version.__lt__`, via the comparison key). -/
def pvLt (a b : PV) : Bool := decide (cmpkey a < cmpkey b)

/-! ## `update.py` -/

/-- `parse_version` (`update.py:91`): `None`/empty input, an invalid
version, and any pre-release all yield `None`. -/
def parse_version : Option String → Option PV
  | none => none
  | some s =>
    if s = "" then none
    else
      match pep440Parse s with
      | some v => if v.isPrerelease then none else some v
      | none => none

/-- A parsed image reference (`parse_image`'s result tuple). -/
structure ImageRef where
  registry : Option String
  user : String
  image : String
  version : String
  deriving DecidableEq

/-- The `"/"`-segment dispatch of `parse_image` (`update.py:74`): one
segment is a bare repository (sentinel namespace `"_"`), two are either
registry (first part contains a `"."`) or namespace plus repository, three
are registry, namespace, repository; more is invalid. -/
def imageRefOfBody (body version : String) : Option ImageRef :=
  match (pySplit '/' body.data).map String.mk with
  | [i] => some ⟨none, "_", i, version⟩
  | [part, i] =>
    if pyContains part.data '.' then some ⟨some part, "_", i, version⟩
    else some ⟨none, part, i, version⟩
  | [r, u, i] => some ⟨some r, u, i, version⟩
  | _ => none

/-- `parse_image` (`update.py:66`): split on `":"` — the version is the
last segment when there is more than one, else `"latest"`, and the body is
the FIRST segment (`version_segments[0]`) — then dispatch on the `"/"`
segments of the body. -/
def parse_image (image : String) : Option ImageRef :=
  let version_segments := (pySplit ':' image.data).map String.mk
  let version :=
    if version_segments.length > 1 then version_segments.getLastD ""
    else "latest"
  imageRefOfBody (version_segments.headD "") version

/-- `"/".join(filter(None, [registry, user, image]))` (`update.py:114/143`):
absent (`None`) and empty parts are dropped, everything else — including
the `"_"` sentinel namespace — is kept. -/
def full_image (registry : Option String) (user image : String) : String :=
  String.intercalate "/"
    ((([registry, some user, some image].filterMap id).filter (· ≠ "")))

/-- The semantics of `re.search(pattern, version)` + first capture group,
abstracted: a regex oracle maps a pattern and an input to the extracted
group (`none` = no match, no groups, or an unmatched group). -/
abbrev RegexSem := String → String → Option String

/-- `extract_version` (`update.py:55`): a falsy pattern (absent or empty)
returns the input unchanged; otherwise the regex oracle decides.  A truthy
non-string pattern would make `re.search` raise `TypeError` in the source;
theorems that depend on this path assume a well-typed pattern. -/
def extract_version (regexSem : RegexSem) (version : String)
    (pattern : Option YVal) : Option String :=
  match pattern with
  | none => some version
  | some p =>
    if !p.truthy then some version
    else
      match p with
      | .str pat => regexSem pat version
      | _ => none

/-- The configuration state behind `Config`: the process environment
(`os.getenv`) and the merged YAML mapping (`self.config.get`). -/
structure Config where
  env : String → Option String
  file : String → Option YVal

/-- `Config.default_values`. -/
def default_values (key : String) : Option YVal :=
  if key = "containers_folder" then some (.str "containers")
  else if key = "limit" then some (.int 40)
  else if key = "timeout" then some (.int 10)
  else none

/-- `Config.__getitem__` (`update.py:47`):
`os.getenv(key.upper()) or self.config.get(key.lower()) or
self.default_values.get(key)` — Python `or`, so falsy values fall
through. -/
def Config.getitem (c : Config) (key : String) : Option YVal :=
  pyOr ((c.env (pyUpper key)).map .str)
    (pyOr (c.file (pyLower key)) (default_values key))

/-- The override resolution inside `update` (`update.py:145`): the first
key whose configuration value is truthy (hence a non-empty value) and a
mapping; `{}` otherwise. -/
def resolveOverride (cfg : Config) (keys : List String) :
    List (String × YVal) :=
  match keys.findSome? (fun k =>
    match cfg.getitem k with
    | some (.dict d) => if d.isEmpty then none else some d
    | _ => none) with
  | some d => d
  | none => []

/-- The tag-listing oracle seen by `find_versions`: arguments are the
registry, the `user/image` repository path and the override's
`username`/`password` entries; `none` models a raised exception and
`some tags` the returned list. -/
abbrev TagFetch :=
  Option String → String → Option YVal → Option YVal → Option (List String)

/-- Python `tags[-limit:]` for an arbitrary (possibly non-positive) `int`
limit. -/
def pySliceLast (limit : Int) (xs : List String) : List String :=
  if limit > 0 then xs.drop (xs.length - limit.toNat)
  else xs.drop (-limit).toNat

/-- `find_versions` (`update.py:105`): read the limit, substitute
`library` for the `"_"` sentinel, call the client; an exception or an
empty tag list yields `[]`, otherwise the last `limit` tags.  An ill-typed
`limit` would make `int()` raise in the source; the junk value 0 stands in
and theorems that reach this path assume a well-typed limit. -/
def find_versions (cfg : Config) (fetch : TagFetch) (registry : Option String)
    (user image : String) (username password : Option YVal) : List String :=
  let limit := (pyIntY ((cfg.getitem "limit").getD .null)).getD 0
  let user' := if user = "_" then "library" else user
  match fetch registry (user' ++ "/" ++ image) username password with
  | some tags => if tags.isEmpty then [] else pySliceLast limit tags
  | none => []

/-- Python `max(versions, key=lambda p: p[0])` on a nonempty list: the
first element whose key no later element strictly exceeds. -/
def pyMaxByFst (x : PV × String) (xs : List (PV × String)) : PV × String :=
  xs.foldl (fun acc y => if pvLt acc.1 y.1 then y else acc) x

/-- The candidate list comprehension of `update` (`update.py:181`): the
`(parsed, raw)` pairs of the tags whose extracted version parses and
compares strictly greater than the current version. -/
def candidateTags (regexSem : RegexSem) (pattern : Option YVal)
    (current : PV) (tags : List String) : List (PV × String) :=
  tags.filterMap (fun t =>
    match parse_version (extract_version regexSem t pattern) with
    | some v => if pvLt current v then some (v, t) else none
    | none => none)

/-- `update` (`update.py:134`) for one container, with the network and the
regex engine abstracted (`fetch`, `regexSem`); `imageStr` is
`str(container["image"])`.  NOTE: the source rebinds `container` to the
resolved override dict at line 145, so credentials and options are read
from the override, not from the container document. -/
def update (cfg : Config) (regexSem : RegexSem) (fetch : TagFetch)
    (imageStr : String) : Option (String × String × String) :=
  match parse_image imageStr with
  | none => none
  | some ref =>
    let fullImage := full_image ref.registry ref.user ref.image
    let ovr := resolveOverride cfg
      [fullImage, ref.user ++ "/" ++ ref.image, ref.image]
    match dictGet ovr "update" with
    | some (.bool false) => none
    | _ =>
      let version_regex := dictGet ovr "version_regex"
      match parse_version (extract_version regexSem ref.version version_regex) with
      | none => none
      | some current_version =>
        let raw_versions := find_versions cfg fetch ref.registry ref.user
          ref.image (dictGet ovr "username") (dictGet ovr "password")
        if raw_versions.isEmpty then none
        else
          match candidateTags regexSem version_regex current_version raw_versions with
          | [] => none
          | x :: xs =>
            let newest := (pyMaxByFst x xs).2
            if newest = "" then none
            else some (fullImage, ref.image, newest)

/-! ## `utils/oci_api.py`

`httpx` is modelled by an oracle `http : Request → Response` (the response
body already parsed as JSON).  `list_tags` returns the Python result —
`Except` distinguishes raised exceptions — together with the trace of GET
requests it issued, in order. -/

/-- One `client.get(...)` call: URL, query parameters (`params=`), basic
credentials (`auth=`) and extra headers. -/
structure Request where
  url : String
  query : List (String × String)
  auth : Option (String × String)
  headers : List (String × String)
  deriving DecidableEq

/-- An HTTP response: status, headers and JSON body. -/
structure Response where
  status : Nat
  headers : List (String × String)
  body : YVal

/-- `response.is_success` — the statuses `raise_for_status` lets pass. -/
def statusOk (s : Nat) : Bool := 200 ≤ s && s ≤ 299

/-- `r.headers.get(k, d)` — httpx header lookup is case-insensitive. -/
def headerGetD (hs : List (String × String)) (k d : String) : String :=
  match hs.find? (fun kv => pyLower kv.1 = pyLower k) with
  | some kv => kv.2
  | none => d

/-- String-valued dict assignment (Python semantics, as `dictSet`). -/
def strDictSet (es : List (String × String)) (k v : String) :
    List (String × String) :=
  match es with
  | [] => [(k, v)]
  | (k', v') :: rest =>
    if k' = k then (k, v) :: rest else (k', v') :: strDictSet rest k v

/-- String-valued dict lookup. -/
def strDictGet (es : List (String × String)) (k : String) : Option String :=
  match es with
  | [] => none
  | (k', v) :: rest => if k' = k then some v else strDictGet rest k

/-- String-valued dict `pop`'s removal part. -/
def strDictRemove (es : List (String × String)) (k : String) :
    List (String × String) :=
  es.filter (fun kv => kv.1 ≠ k)

/-- The challenge-parameter loop of `list_tags` (`oci_api.py:31`): split on
`","`, skip parts without `"="`, split each at the first `"="`, strip the
key, strip the value and its surrounding quotes. -/
def parseChallenge (parts : List Char) : List (String × String) :=
  (pySplit ',' parts).foldl
    (fun params p =>
      match pySplitOnce '=' p with
      | none => params
      | some (k, v) =>
        strDictSet params (String.mk (pyStrip k))
          (String.mk (pyStripP (fun c => c = '"') (pyStrip v))))
    []

/-- The exceptions `list_tags` can raise: `HTTPStatusError` from
`raise_for_status`, the missing-token `RuntimeError`, and the `TypeError`
of calling `.get` on a non-object JSON body. -/
inductive LtErr where
  | httpStatus : Nat → LtErr
  | noToken : LtErr
  | typeError : LtErr
  deriving DecidableEq

/-- `auth = (username, password) if both are not None else None`. -/
def mkAuth (username password : Option String) : Option (String × String) :=
  match username, password with
  | some u, some p => some (u, p)
  | _, _ => none

/-- Falsy or absent host and `docker.io` normalise to the index host. -/
def normHost (registry_host : Option String) : String :=
  match registry_host with
  | none => "index.docker.io"
  | some h => if h = "" || h = "docker.io" then "index.docker.io" else h

/-- `r.json().get("tags", []) or []` (`none` = `.get` on a non-object, a
`TypeError` in the source). -/
def pyGetTags (j : YVal) : Option YVal :=
  match j with
  | .dict fs =>
    some (match pyOr (dictGet fs "tags") (some (.list [])) with
          | some v => v
          | none => .list [])
  | _ => none

/-- Python `str(v)`/f-string interpolation for scalar values (the token
endpoints modelled here return scalars; theorems about the retry header
assume a string token, so the container clauses are never exercised). -/
def YVal.pyStr : YVal → String
  | .null => "None"
  | .bool true => "True"
  | .bool false => "False"
  | .int n => toString n
  | .str s => s
  | .list _ => ""
  | .dict _ => ""

/-- `list_tags` (`oci_api.py:4`) against an `http` oracle, returning the
result and the ordered trace of requests issued. -/
def list_tags (http : Request → Response) (registry_host : Option String)
    (repo : String) (username password : Option String) :
    Except LtErr YVal × List Request :=
  let host := normHost registry_host
  let url := "https://" ++ host ++ "/v2/" ++ repo ++ "/tags/list"
  let auth := mkAuth username password
  let req0 : Request := ⟨url, [], auth, []⟩
  let r := http req0
  if r.status = 200 then
    (match pyGetTags r.body with
     | some t => .ok t
     | none => .error .typeError, [req0])
  else
    let www := headerGetD r.headers "WWW-Authenticate" ""
    if r.status = 401 && "bearer".data.isPrefixOf (pyLower www).data then
      let params := parseChallenge (pyStrip (www.data.drop 7))
      match strDictGet params "realm" with
      | none => (.ok (.list []), [req0])
      | some realm =>
        if realm = "" then (.ok (.list []), [req0])
        else
          let req1 : Request := ⟨realm, strDictRemove params "realm", auth, []⟩
          let r1 := http req1
          if !statusOk r1.status then
            (.error (.httpStatus r1.status), [req0, req1])
          else
            match r1.body with
            | .dict fs =>
              match pyOr (dictGet fs "token") (dictGet fs "access_token") with
              | some tok =>
                if !tok.truthy then (.error .noToken, [req0, req1])
                else
                  let req2 : Request :=
                    ⟨url, [], none,
                     [("Authorization", "Bearer " ++ tok.pyStr)]⟩
                  let r2 := http req2
                  if !statusOk r2.status then
                    (.error (.httpStatus r2.status), [req0, req1, req2])
                  else
                    (match pyGetTags r2.body with
                     | some t => .ok t
                     | none => .error .typeError, [req0, req1, req2])
              | none => (.error .noToken, [req0, req1])
            | _ => (.error .typeError, [req0, req1])
    else
      if statusOk r.status then (.ok (.list []), [req0])
      else (.error (.httpStatus r.status), [req0])

/-! ## `process_file`: the persisted mutation (`update.py:208`)

The file's documents are the list produced by `yaml.safe_load_all`; a
positive decision rewrites document `i`'s `image` key in place and
`yaml.dump_all` serialises the same in-memory list back, in order. -/

/-- `container["image"] = f"{full_image}:{newest_version}"` applied to
document `i` of the loaded list (out-of-range leaves the list unchanged;
the source indexes an existing document). -/
def applyDecision (containers : List (List (String × YVal))) (i : Nat)
    (fullImage newVersion : String) : List (List (String × YVal)) :=
  match containers[i]? with
  | some c =>
    containers.set i (dictSet c "image" (.str (fullImage ++ ":" ++ newVersion)))
  | none => containers

/-! ## The concurrent pipeline (`process_file` / `main`)

`main` runs one `process_file` task per file under `asyncio.gather`; all
tasks share one `asyncio.Lock` (`git_lock`).  Per container with a positive
decision a task executes `async with git_lock:` around file write, stage and
commit.  The model: each task is the list of its remaining actions
(`taskProg` lists one `acquire‑write‑stage‑commit‑release` block per
decided container), a scheduler step picks a task and executes its next
action; `acquire` blocks while the lock is held, exactly as the asyncio
lock suspends the task.  `runSched` returns the final state and the trace
of executed actions. -/

/-- The atomic actions of one file task that touch shared state. -/
inductive Act where
  | acquire : Act
  | write : Act
  | stage : Act
  | commit : Act
  | release : Act
  deriving DecidableEq

/-- The lock-guarded block executed for one decided container. -/
def commitBlock : List Act :=
  [.acquire, .write, .stage, .commit, .release]

/-- The action list of one file task, given which of its containers get an
update decision (containers are processed strictly in sequence). -/
def taskProg : List Bool → List Act
  | [] => []
  | d :: ds => if d then commitBlock ++ taskProg ds else taskProg ds

/-- Global state: per-task remaining programs and the lock holder. -/
structure Sys where
  tasks : List (List Act)
  lock : Option Nat
  deriving DecidableEq

/-- One scheduler step on task `i`: execute its next action, or do nothing
when the task is finished, unknown, or blocked on `acquire`. -/
def step (s : Sys) (i : Nat) : Sys × Option (Nat × Act) :=
  match s.tasks[i]? with
  | none => (s, none)
  | some [] => (s, none)
  | some (a :: rest) =>
    match a with
    | .acquire =>
      if s.lock = none then
        (⟨s.tasks.set i rest, some i⟩, some (i, .acquire))
      else (s, none)
    | .release => (⟨s.tasks.set i rest, none⟩, some (i, .release))
    | a => (⟨s.tasks.set i rest, s.lock⟩, some (i, a))

/-- Run a whole schedule, collecting the event trace. -/
def runSched : Sys → List Nat → Sys × List (Nat × Act)
  | s, [] => (s, [])
  | s, i :: sched =>
    let p := step s i
    let q := runSched p.1 sched
    (q.1, p.2.toList ++ q.2)

/-- The initial state of a run: one pristine task per file, lock free. -/
def initSys (dss : List (List Bool)) : Sys := ⟨dss.map taskProg, none⟩

/-- A task sits inside the write‑stage‑commit critical section: its next
action is one of the guarded ones (it has passed `acquire` and not yet
passed `release`). -/
def insideSection (s : Sys) (i : Nat) : Prop :=
  ∃ a p, s.tasks[i]? = some (a :: p) ∧ a ≠ Act.acquire

/-- Trace property: between one task's `write` and any other task's
`write` there is a `commit` of the first task — no foreign write
interleaves a write‑…‑commit span. -/
def noInterleavedWrite (tr : List (Nat × Act)) : Prop :=
  ∀ (p q i j : Nat), p < q → tr[p]? = some (i, Act.write) →
    tr[q]? = some (j, Act.write) → i ≠ j →
    ∃ m : Nat, p < m ∧ m < q ∧ tr[m]? = some (i, Act.commit)

/-! ## Definitions written from the specification's words

For claims whose wording can differ from the code, the claimed behaviour is
re-stated as its own definition, to be compared with the embedded source
function. -/

/-- C4's claim as written: the version is separated at the LAST `":"` — the
remainder handed to the segment dispatch is everything before it. -/
def parse_imageSpecC4 (image : String) : Option ImageRef :=
  let segs := (pySplit ':' image.data).map String.mk
  let version := if segs.length > 1 then segs.getLastD "" else "latest"
  let body :=
    if segs.length > 1 then String.intercalate ":" segs.dropLast else image
  imageRefOfBody body version

/-- C4 amended: the version is the segment after the last `":"` (default
`"latest"` when the string has no colon), but the remainder handed to the
segment dispatch is the text before the FIRST `":"`. -/
def parse_imageAmended (image : String) : Option ImageRef :=
  let version :=
    if pyContains image.data ':' then
      String.mk ((image.data.reverse.takeWhile (· ≠ ':')).reverse)
    else "latest"
  imageRefOfBody (String.mk (image.data.takeWhile (· ≠ ':'))) version

/-- C8's claim as written: environment value whenever the variable is set,
else the file value whenever present, else the default. -/
def configSpecLookup (c : Config) (key : String) : Option YVal :=
  match c.env (pyUpper key) with
  | some s => some (.str s)
  | none =>
    match c.file (pyLower key) with
    | some v => some v
    | none => default_values key

/-- C7's claim as written: the first key whose configuration value is a
mapping — with no constraint on the mapping being non-empty. -/
def resolveOverrideSpecC7 (cfg : Config) (keys : List String) :
    List (String × YVal) :=
  match keys.findSome? (fun k =>
    match cfg.getitem k with
    | some (.dict d) => some d
    | _ => none) with
  | some d => d
  | none => []

/-- The per-key outcome of the override lookup, for stating the
first-match property of `resolveOverride`. -/
def overrideCandidate (cfg : Config) (k : String) :
    Option (List (String × YVal)) :=
  match cfg.getitem k with
  | some (.dict d) => some d
  | _ => none

/-- C3's claim as written, the commit-count part: every task that wrote a
file at all has produced exactly one commit. -/
def oneCommitPerUpdatedTask (tr : List (Nat × Act)) : Prop :=
  ∀ i : Nat, (i, Act.write) ∈ tr → tr.count (i, Act.commit) = 1

/-! ## Concrete inputs used by counterexamples and witnesses -/

/-- A configuration with no environment overrides and an empty file. -/
def cfgEmpty : Config := ⟨fun _ => none, fun _ => none⟩

/-- A configuration file carrying `timeout: 0` (a falsy but present file
value). -/
def cfgC8a : Config :=
  ⟨fun _ => none, fun k => if k = "timeout" then some (.int 0) else none⟩

/-- `TIMEOUT` set to the empty string in the environment, with a file
value present as well. -/
def cfgC8b : Config :=
  ⟨fun k => if k = "TIMEOUT" then some "" else none,
   fun k => if k = "timeout" then some (.str "5") else none⟩

/-- A configuration disabling updates for `user/app`. -/
def cfgC7w : Config :=
  ⟨fun _ => none, fun k =>
    if k = "user/app" then some (.dict [("update", .bool false)]) else none⟩

/-- The `WWW-Authenticate` value of the specification's bearer example. -/
def wwwC2 : String :=
  "Bearer realm=\"https://auth.example/token\",service=\"registry\",scope=\"repository:org/app:pull\""

/-- The initial tags request of the C2 witness scenario. -/
def reqC2_0 : Request :=
  ⟨"https://ghcr.io/v2/org/app/tags/list", [], none, []⟩

/-- The expected token request of the C2 witness scenario. -/
def reqC2_1 : Request :=
  ⟨"https://auth.example/token",
   [("service", "registry"), ("scope", "repository:org/app:pull")], none, []⟩

/-- The expected authorised retry of the C2 witness scenario. -/
def reqC2_2 : Request :=
  ⟨"https://ghcr.io/v2/org/app/tags/list", [], none,
   [("Authorization", "Bearer tok123")]⟩

/-- The registry oracle of the C2 witness scenario: a 401 bearer challenge,
a token endpoint, and a tags endpoint honouring the token. -/
def httpC2 : Request → Response := fun r =>
  if r = reqC2_0 then ⟨401, [("WWW-Authenticate", wwwC2)], .null⟩
  else if r = reqC2_1 then ⟨200, [], .dict [("token", .str "tok123")]⟩
  else if r = reqC2_2 then ⟨200, [], .dict [("tags", .list [.str "1.0.0"])]⟩
  else ⟨500, [], .null⟩

/-- One file task with two containers that both receive update decisions. -/
def sysC3 : Sys := initSys [[true, true]]

/-- A schedule long enough to drive `sysC3` to completion. -/
def schedC3 : List Nat := List.replicate 10 0

/-- A task program outside the lock: a whole remaining `taskProg`. -/
def OutsideShape (p : List Act) : Prop := ∃ ds, p = taskProg ds

/-- A task program inside the critical section: a proper tail of a
`commitBlock` followed by a whole remaining program. -/
def InsideShape (p : List Act) : Prop :=
  ∃ ds,
    p = Act.write :: Act.stage :: Act.commit :: Act.release :: taskProg ds ∨
    p = Act.stage :: Act.commit :: Act.release :: taskProg ds ∨
    p = Act.commit :: Act.release :: taskProg ds ∨
    p = Act.release :: taskProg ds

/-- A task that has written but not yet committed. -/
def PendingCommit (p : List Act) : Prop :=
  ∃ ds,
    p = Act.stage :: Act.commit :: Act.release :: taskProg ds ∨
    p = Act.commit :: Act.release :: taskProg ds

/-- The run invariant: the lock holder (if any) is a real task, a task
holding the lock is inside the section, and every other task is at a block
boundary. -/
def SysInv (s : Sys) : Prop :=
  (∀ i : Nat, s.lock = some i → i < s.tasks.length) ∧
  ∀ (i : Nat) (p : List Act), s.tasks[i]? = some p →
    (s.lock = some i → InsideShape p) ∧ (s.lock ≠ some i → OutsideShape p)

/-! ## Lemmas about the split/strip machinery -/

theorem pySplit_cons (sep c : Char) (cs : List Char) :
    pySplit sep (c :: cs) =
      match pySplit sep cs with
      | g :: gs => if c = sep then [] :: g :: gs else (c :: g) :: gs
      | [] => [[c]] := rfl

theorem pySplit_ne_nil (sep : Char) (cs : List Char) : pySplit sep cs ≠ [] := by
  induction cs with
  | nil => simp [pySplit]
  | cons c cs ih =>
    rw [pySplit_cons]
    cases h : pySplit sep cs with
    | nil => exact absurd h ih
    | cons g gs => by_cases hc : c = sep <;> simp [hc]

theorem pySplit_headD (sep : Char) (cs : List Char) :
    (pySplit sep cs).headD [] = cs.takeWhile (· ≠ sep) := by
  induction cs with
  | nil => simp [pySplit]
  | cons c cs ih =>
    rw [pySplit_cons]
    cases h : pySplit sep cs with
    | nil => exact absurd h (pySplit_ne_nil sep cs)
    | cons g gs =>
      rw [h] at ih
      by_cases hc : c = sep
      · simp [hc, List.takeWhile_cons]
      · simpa [hc, List.takeWhile_cons] using ih

theorem pySplit_length (sep : Char) (cs : List Char) :
    (pySplit sep cs).length = cs.count sep + 1 := by
  induction cs with
  | nil => simp [pySplit]
  | cons c cs ih =>
    rw [pySplit_cons]
    cases h : pySplit sep cs with
    | nil => exact absurd h (pySplit_ne_nil sep cs)
    | cons g gs =>
      rw [h] at ih
      by_cases hc : c = sep
      · simp only [hc, if_pos rfl, List.length_cons, List.count_cons,
          beq_self_eq_true, if_pos, ih]
      · have hc' : ¬ (c == sep) = true := by simpa using hc
        simp only [if_neg hc, List.length_cons, List.count_cons] at *
        simp [hc'] at *
        omega

theorem pySplit_of_not_mem (sep : Char) (cs : List Char) (h : sep ∉ cs) :
    pySplit sep cs = [cs] := by
  induction cs with
  | nil => simp [pySplit]
  | cons c cs ih =>
    rw [pySplit_cons, ih (fun hm => h (List.mem_cons_of_mem c hm))]
    have hc : c ≠ sep := fun e => h (e ▸ List.mem_cons_self c cs)
    simp [hc]

theorem getLastD_cons_of_ne_nil {α : Type} (x d : α) (l : List α) (h : l ≠ []) :
    (x :: l).getLastD d = l.getLastD d := by
  cases l with
  | nil => exact absurd rfl h
  | cons y ys => simp [List.getLastD_cons]

theorem pySplit_getLastD (sep : Char) (cs : List Char) :
    (pySplit sep cs).getLastD [] = (cs.reverse.takeWhile (· ≠ sep)).reverse := by
  induction cs with
  | nil => simp [pySplit]
  | cons c cs ih =>
    by_cases hmem : sep ∈ cs
    · rw [pySplit_cons]
      cases h : pySplit sep cs with
      | nil => exact absurd h (pySplit_ne_nil sep cs)
      | cons g gs =>
        rw [h] at ih
        rw [List.reverse_cons, List.takeWhile_append]
        have hnotfull :
            ¬ (cs.reverse.takeWhile (fun x => decide (x ≠ sep))).length
              = cs.reverse.length := by
          intro hlen
          have hfull : cs.reverse.takeWhile (fun x => decide (x ≠ sep)) = cs.reverse :=
            (List.takeWhile_prefix _).eq_of_length hlen
          have hsep : sep ∈ cs.reverse.takeWhile (fun x => decide (x ≠ sep)) := by
            rw [hfull]; simpa using hmem
          have := List.mem_takeWhile_imp hsep
          simp at this
        rw [if_neg hnotfull]
        have hlen := pySplit_length sep cs
        rw [h] at hlen
        have hcnt : 0 < cs.count sep := List.count_pos_iff.mpr hmem
        have hgs : gs ≠ [] := by
          intro hgnil
          rw [hgnil] at hlen
          simp at hlen
          omega
        by_cases hc : c = sep
        · simp only [if_pos hc]
          rw [getLastD_cons_of_ne_nil _ _ _ (by simp : (g :: gs) ≠ [])]
          exact ih
        · simp only [if_neg hc]
          rw [getLastD_cons_of_ne_nil _ _ _ hgs]
          rw [getLastD_cons_of_ne_nil _ _ _ hgs] at ih
          exact ih
    · rw [pySplit_cons, pySplit_of_not_mem sep cs hmem]
      rw [List.reverse_cons, List.takeWhile_append]
      have hfull : cs.reverse.takeWhile (fun x => decide (x ≠ sep)) = cs.reverse := by
        rw [List.takeWhile_eq_self_iff]
        intro a ha
        simp only [List.mem_reverse] at ha
        simp only [decide_eq_true_eq]
        exact fun e => hmem (e ▸ ha)
      rw [if_pos (by rw [hfull])]
      by_cases hc : c = sep
      · subst hc
        simp [List.getLastD_cons, List.takeWhile]
      · simp [List.getLastD_cons, List.takeWhile, hc]

theorem headD_map_mk (l : List (List Char)) (h : l ≠ []) :
    (l.map String.mk).headD "" = String.mk (l.headD []) := by
  cases l with
  | nil => exact absurd rfl h
  | cons x xs => rfl

theorem getLastD_map_mk (l : List (List Char)) (d : List Char) :
    (l.map String.mk).getLastD (String.mk d) = String.mk (l.getLastD d) := by
  induction l generalizing d with
  | nil => rfl
  | cons x xs ih =>
    rw [List.map_cons, List.getLastD_cons, List.getLastD_cons]
    exact ih x

/-! ## Lemmas about `parse_image` and the configuration lookup -/

theorem parse_image_eq_amended (img : String) :
    parse_image img = parse_imageAmended img := by
  by_cases hc : ':' ∈ img.data
  · have hpc : pyContains img.data ':' = true := by
      simpa [pyContains] using List.elem_eq_true_of_mem hc
    have hgt : ((pySplit ':' img.data).map String.mk).length > 1 := by
      rw [List.length_map, pySplit_length]
      have := List.count_pos_iff.mpr hc
      omega
    have hbody : ((pySplit ':' img.data).map String.mk).headD "" =
        String.mk (img.data.takeWhile (· ≠ ':')) := by
      rw [headD_map_mk _ (pySplit_ne_nil ':' img.data), pySplit_headD]
    have hver : ((pySplit ':' img.data).map String.mk).getLastD "" =
        String.mk ((img.data.reverse.takeWhile (· ≠ ':')).reverse) := by
      have : ("" : String) = String.mk [] := rfl
      rw [this, getLastD_map_mk, pySplit_getLastD]
    simp only [parse_image, parse_imageAmended, hpc, if_true, if_pos hgt,
      hbody, hver]
  · have hpc : pyContains img.data ':' = false := by
      simp only [pyContains, List.contains_eq_any_beq]
      simp only [List.any_eq_false, beq_iff_eq]
      exact fun x hx e => hc (e ▸ hx)
    have hsplit := pySplit_of_not_mem ':' img.data hc
    have hle : ¬ ((pySplit ':' img.data).map String.mk).length > 1 := by
      rw [List.length_map, hsplit]
      simp
    have htw : img.data.takeWhile (· ≠ ':') = img.data := by
      rw [List.takeWhile_eq_self_iff]
      intro a ha
      simp only [decide_eq_true_eq]
      exact fun e => hc (e ▸ ha)
    simp only [parse_image, parse_imageAmended, hpc, Bool.false_eq_true,
      if_false, if_neg hle, hsplit, htw]
    rfl

theorem getitem_not_empty_dict (c : Config) (key : String) :
    c.getitem key ≠ some (.dict []) := by
  have hdef : default_values key ≠ some (.dict []) := by
    unfold default_values
    split_ifs <;> simp
  have hinner : pyOr (c.file (pyLower key)) (default_values key) ≠ some (.dict []) := by
    unfold pyOr
    cases hf : c.file (pyLower key) with
    | none => exact hdef
    | some v =>
      by_cases hv : v.truthy
      · simp only [hv, if_true]
        intro h
        rw [Option.some.inj h] at hv
        simp [YVal.truthy] at hv
      · simpa [hv] using hdef
  unfold Config.getitem pyOr
  cases he : c.env (pyUpper key) with
  | none => simpa using hinner
  | some s =>
    simp only [Option.map_some']
    by_cases hs : (YVal.str s).truthy
    · simp [hs]
    · simpa [hs] using hinner

theorem resolveOverride_eq_specC7 (cfg : Config) (keys : List String) :
    resolveOverride cfg keys = resolveOverrideSpecC7 cfg keys := by
  induction keys with
  | nil => rfl
  | cons k ks ih =>
    unfold resolveOverride resolveOverrideSpecC7 at *
    rw [List.findSome?_cons, List.findSome?_cons]
    cases hg : cfg.getitem k with
    | none => simpa using ih
    | some v =>
      cases v with
      | dict d =>
        cases d with
        | nil => exact absurd hg (getitem_not_empty_dict cfg k)
        | cons x xs => simp
      | null => simpa using ih
      | bool b => simpa using ih
      | int n => simpa using ih
      | str s => simpa using ih
      | list xs => simpa using ih

/-! ## Claim C4 -/

/-- C4 counterexample: on an image with a colon inside the path
(`localhost:5000/app:1.0`), `parse_image` hands the text before the FIRST
colon to the segment dispatch, not — as the claim states — the remainder
before the last colon, so the two disagree. -/
theorem C4_counterexample :
    parse_image "localhost:5000/app:1.0" =
      some ⟨none, "_", "localhost", "1.0"⟩ ∧
    parse_imageSpecC4 "localhost:5000/app:1.0" =
      some ⟨none, "localhost:5000", "app", "1.0"⟩ ∧
    parse_image "localhost:5000/app:1.0" ≠
      parse_imageSpecC4 "localhost:5000/app:1.0" :=
  ⟨by decide, by decide, by decide⟩

/-- C4 (amended): `parse_image` takes the version from the segment after
the last `":"` (defaulting to `"latest"` when no colon is present) but
splits the text before the FIRST `":"` on `"/"`; the segment rules are as
claimed (1 segment → repository with sentinel namespace, 2 → registry when
the first contains a dot else namespace, 3 → registry/namespace/repository,
more → invalid), as holds on the claim's own examples. -/
theorem C4_first_colon_amended :
    (∀ img : String, parse_image img = parse_imageAmended img) ∧
    parse_image "ghcr.io/org/app:1.2.3" =
      some ⟨some "ghcr.io", "org", "app", "1.2.3"⟩ ∧
    parse_image "app" = some ⟨none, "_", "app", "latest"⟩ ∧
    parse_image "a/b/c/d/e" = none :=
  ⟨parse_image_eq_amended, by decide, by decide, by decide⟩

/-! ## Claim C5 -/

/-- C5: the derived full image id does NOT omit the sentinel namespace —
`filter(None, ...)` drops only `None`/empty parts, and `"_"` is truthy.
For the single-segment image `"app"` the full image id is `"_/app"`, not
`"app"` as the claim states, and the update decision (hence the rewritten
image field) carries `"_/app"`. -/
theorem C5_sentinel_namespace_kept :
    parse_image "app" = some ⟨none, "_", "app", "latest"⟩ ∧
    full_image none "_" "app" = "_/app" ∧
    "_/app" ≠ "app" ∧
    update cfgEmpty (fun _ _ => none) (fun _ _ _ _ => some ["1.0.1"])
      "app:1.0.0" = some ("_/app", "app", "1.0.1") :=
  ⟨by decide, by decide, by decide, by decide⟩

/-! ## Claim C7 -/

/-- C7: the override is resolved by trying, in order, the full image id,
then `namespace/repository`, then `repository`, taking the first key whose
configuration value is a mapping (the code's extra non-emptiness test is
vacuous: the truthiness chain of `Config.__getitem__` can never produce an
empty mapping, see `getitem_not_empty_dict`); and a resolved override with
`update == false` yields no decision. -/
theorem C7_override_resolution :
    (∀ (cfg : Config) (keys : List String),
      resolveOverride cfg keys = resolveOverrideSpecC7 cfg keys) ∧
    (∀ (cfg : Config) (k : String) (keys : List String) d,
      overrideCandidate cfg k = some d →
        resolveOverride cfg (k :: keys) = d) ∧
    (∀ (cfg : Config) (k : String) (keys : List String),
      overrideCandidate cfg k = none →
        resolveOverride cfg (k :: keys) = resolveOverride cfg keys) ∧
    (∀ cfg : Config, resolveOverride cfg [] = []) ∧
    (∀ (cfg : Config) (regexSem : RegexSem) (fetch : TagFetch)
        (imageStr : String) (ref : ImageRef),
      parse_image imageStr = some ref →
      dictGet (resolveOverride cfg
        [full_image ref.registry ref.user ref.image,
         ref.user ++ "/" ++ ref.image, ref.image]) "update" =
        some (.bool false) →
      update cfg regexSem fetch imageStr = none) := by
  refine ⟨resolveOverride_eq_specC7, ?_, ?_, fun _ => rfl, ?_⟩
  · intro cfg k keys d hk
    rw [resolveOverride_eq_specC7]
    simp only [overrideCandidate] at hk
    simp only [resolveOverrideSpecC7, List.findSome?_cons, hk]
  · intro cfg k keys hk
    rw [resolveOverride_eq_specC7, resolveOverride_eq_specC7]
    simp only [overrideCandidate] at hk
    simp only [resolveOverrideSpecC7, List.findSome?_cons, hk]
  · intro cfg regexSem fetch imageStr ref href hupd
    simp only [update, href, hupd]

/-- C7 witness: a config disabling `user/app` makes the resolver return no
decision for `user/app:1.0.0`. -/
theorem C7_witness :
    update cfgC7w (fun _ _ => none) (fun _ _ _ _ => none)
      "user/app:1.0.0" = none :=
  C7_override_resolution.2.2.2.2 cfgC7w (fun _ _ => none) (fun _ _ _ _ => none)
    "user/app:1.0.0" ⟨none, "user", "app", "1.0.0"⟩ (by decide) rfl

/-! ## Claim C8 -/

/-- C8 counterexample: with `timeout: 0` in the configuration file the
lookup returns the built-in default `10`, not the present file value `0`;
with `TIMEOUT` set to the empty string it returns the file value instead
of the set environment value.  Both diverge from the claimed
env-then-file-then-default resolution. -/
theorem C8_counterexample :
    Config.getitem cfgC8a "timeout" ≠ configSpecLookup cfgC8a "timeout" ∧
    Config.getitem cfgC8b "timeout" ≠ configSpecLookup cfgC8b "timeout" := by
  constructor
  · intro h
    have h1 : Config.getitem cfgC8a "timeout" = some (.int 10) := rfl
    have h2 : configSpecLookup cfgC8a "timeout" = some (.int 0) := rfl
    rw [h1, h2] at h
    exact absurd (YVal.int.inj (Option.some.inj h)) (by decide)
  · intro h
    have h1 : Config.getitem cfgC8b "timeout" = some (.str "5") := rfl
    have h2 : configSpecLookup cfgC8b "timeout" = some (.str "") := rfl
    rw [h1, h2] at h
    exact absurd (YVal.str.inj (Option.some.inj h)) (by decide)

/-- C8 (amended): the lookup returns the environment value when the
variable is set to a non-empty string; otherwise the file value when it is
present and truthy; otherwise the built-in default. -/
theorem C8_env_file_default_amended (c : Config) (key : String) :
    (∀ s, c.env (pyUpper key) = some s → s ≠ "" →
      c.getitem key = some (.str s)) ∧
    ((c.env (pyUpper key) = none ∨ c.env (pyUpper key) = some "") →
      ∀ v, c.file (pyLower key) = some v → v.truthy →
        c.getitem key = some v) ∧
    ((c.env (pyUpper key) = none ∨ c.env (pyUpper key) = some "") →
      (∀ v, c.file (pyLower key) = some v → ¬ v.truthy) →
      c.getitem key = default_values key) := by
  have hstr0 : (YVal.str "").truthy = false := rfl
  refine ⟨?_, ?_, ?_⟩
  · intro s hs hne
    have hts : (YVal.str s).truthy = true := by simp [YVal.truthy, hne]
    simp [Config.getitem, pyOr, hs, hts]
  · rintro (he | he) v hv ht <;>
      simp [Config.getitem, pyOr, he, hv, ht, hstr0]
  · rintro (he | he) hf <;>
    · cases hv : c.file (pyLower key) with
      | none => simp [Config.getitem, pyOr, he, hv, hstr0]
      | some v =>
        have hvf : v.truthy = false := by simpa using hf v hv
        simp [Config.getitem, pyOr, he, hv, hvf, hstr0]

/-- C8 witness: a set, non-empty `LIMIT` environment variable overrides
the built-in default (the repository's own `test_config_default`
scenario). -/
theorem C8_witness :
    Config.getitem ⟨fun k => if k = "LIMIT" then some "123" else none,
      fun _ => none⟩ "limit" = some (.str "123") :=
  (C8_env_file_default_amended
    ⟨fun k => if k = "LIMIT" then some "123" else none, fun _ => none⟩
    "limit").1 "123" rfl (by decide)

/-! ## Claim C9: the persisted mutation is a frame-preserving point update -/

theorem dictGet_dictSet_same (es : List (String × YVal)) (k : String) (v : YVal) :
    dictGet (dictSet es k v) k = some v := by
  induction es with
  | nil => simp [dictSet, dictGet]
  | cons kv rest ih =>
    obtain ⟨k', v'⟩ := kv
    by_cases h : k' = k <;> simp [dictSet, dictGet, h, ih]

theorem dictGet_dictSet_other (es : List (String × YVal)) (k k' : String)
    (v : YVal) (h : k' ≠ k) :
    dictGet (dictSet es k v) k' = dictGet es k' := by
  induction es with
  | nil => simp [dictSet, dictGet, Ne.symm h]
  | cons kv rest ih =>
    obtain ⟨k0, v0⟩ := kv
    by_cases h0 : k0 = k
    · subst h0
      simp [dictSet, dictGet, Ne.symm h]
    · by_cases h1 : k0 = k'
      · subst h1
        simp [dictSet, dictGet, h0]
      · simp [dictSet, dictGet, h0, h1, ih]

/-- C9: applying a decision to document `i` only rewrites that document's
`image` key: the document count is unchanged, every other document is
untouched (order preserved), the `image` field becomes
`full_image:new_version`, and every other key of document `i` is
unchanged.  The serialised output is the same in-memory list, in order. -/
theorem C9_frame_preservation (containers : List (List (String × YVal)))
    (i : Nat) (full ver : String) (h : i < containers.length) :
    (applyDecision containers i full ver).length = containers.length ∧
    (∀ j : Nat, j ≠ i →
      (applyDecision containers i full ver)[j]? = containers[j]?) ∧
    dictGet ((applyDecision containers i full ver)[i]?.getD []) "image" =
      some (.str (full ++ ":" ++ ver)) ∧
    (∀ k : String, k ≠ "image" →
      dictGet ((applyDecision containers i full ver)[i]?.getD []) k =
        dictGet (containers[i]?.getD []) k) := by
  obtain ⟨c, hc⟩ : ∃ c, containers[i]? = some c :=
    ⟨containers[i], List.getElem?_eq_getElem h⟩
  simp only [applyDecision, hc]
  have hset : (containers.set i
        (dictSet c "image" (.str (full ++ ":" ++ ver))))[i]? =
      some (dictSet c "image" (.str (full ++ ":" ++ ver))) :=
    List.getElem?_set_self h
  refine ⟨List.length_set _ _ _, ?_, ?_, ?_⟩
  · intro j hj
    exact List.getElem?_set_ne (fun e => hj e.symm)
  · rw [hset]
    simp [dictGet_dictSet_same]
  · intro k hk
    rw [hset]
    simp [dictGet_dictSet_other _ _ _ _ hk]

/-- C9 witness: rewriting document 0 of a two-document file keeps the
other document and the non-image key intact. -/
theorem C9_witness :
    (applyDecision [[("image", YVal.str "a:1"), ("ports", YVal.int 80)],
        [("image", YVal.str "b:2")]] 0 "a" "2").length = 2 ∧
    dictGet ((applyDecision [[("image", YVal.str "a:1"), ("ports", YVal.int 80)],
        [("image", YVal.str "b:2")]] 0 "a" "2")[0]?.getD []) "image" =
      some (.str ("a" ++ ":" ++ "2")) ∧
    (applyDecision [[("image", YVal.str "a:1"), ("ports", YVal.int 80)],
        [("image", YVal.str "b:2")]] 0 "a" "2")[1]? =
      ([[("image", YVal.str "a:1"), ("ports", YVal.int 80)],
        [("image", YVal.str "b:2")]] :
          List (List (String × YVal)))[1]? ∧
    dictGet ((applyDecision [[("image", YVal.str "a:1"), ("ports", YVal.int 80)],
        [("image", YVal.str "b:2")]] 0 "a" "2")[0]?.getD []) "ports" =
      dictGet (([[("image", YVal.str "a:1"), ("ports", YVal.int 80)],
        [("image", YVal.str "b:2")]] :
          List (List (String × YVal)))[0]?.getD []) "ports" := by
  obtain ⟨h1, h2, h3, h4⟩ := C9_frame_preservation
    [[("image", YVal.str "a:1"), ("ports", YVal.int 80)],
     [("image", YVal.str "b:2")]] 0 "a" "2" (by decide)
  exact ⟨h1.trans rfl, h3, h2 1 (by decide), h4 "ports" (by decide)⟩

/-! ## Claims C6 and C10: the version comparability domain -/
theorem toLower_of_isDigit (c : Char) (h : c.isDigit = true) : c.toLower = c := by
  simp [Char.isDigit] at h
  obtain ⟨h1, h2⟩ := h
  have h2' : c.val.toNat ≤ (57 : UInt32).toNat := h2
  have h57 : (57 : UInt32).toNat = 57 := rfl
  simp only [Char.toLower]
  rw [if_neg]
  rintro ⟨ha, _⟩
  simp only [Char.toNat] at ha
  omega

theorem not_isPySpace_of_isDigit (c : Char) (h : c.isDigit = true) :
    isPySpace c = false := by
  simp only [Char.isDigit] at h
  obtain ⟨h1, h2⟩ := Bool.and_eq_true_iff.mp h
  have h1' : (48 : UInt32).toNat ≤ c.val.toNat := of_decide_eq_true h1
  have h48 : (48 : UInt32).toNat = 48 := rfl
  simp only [isPySpace, decide_eq_false_iff_not]
  rintro (rfl | rfl | rfl | rfl | rfl | rfl) <;> simp_all

theorem ne_v_of_isDigit (c : Char) (h : c.isDigit = true) : c ≠ 'v' := by
  rintro rfl
  simp [Char.isDigit] at h

theorem dropTrailing_cons (p : Char → Bool) (x : Char) (xs : List Char) :
    dropTrailing p (x :: xs) =
      if (dropTrailing p xs).isEmpty && p x then [] else x :: dropTrailing p xs :=
  rfl

theorem dropTrailing_subset (p : Char → Bool) (cs : List Char) :
    ∀ c ∈ dropTrailing p cs, c ∈ cs := by
  induction cs with
  | nil => simp [dropTrailing]
  | cons x xs ih =>
    intro c hc
    rw [dropTrailing_cons] at hc
    by_cases h : (dropTrailing p xs).isEmpty && p x
    · rw [if_pos h] at hc; cases hc
    · rw [if_neg h] at hc
      rcases List.mem_cons.mp hc with rfl | hmem
      · exact List.mem_cons_self _ _
      · exact List.mem_cons_of_mem _ (ih c hmem)

theorem pyStrip_subset (cs : List Char) : ∀ c ∈ pyStrip cs, c ∈ cs := by
  intro c hc
  have h1 := dropTrailing_subset isPySpace (cs.dropWhile isPySpace) c hc
  exact (List.dropWhile_sublist isPySpace).subset h1

theorem latest_chars (c : Char) (h : c ∈ ("latest" : String).data) :
    c ≠ 'v' ∧ c.isDigit = false ∧ c.toLower = c ∧ isPySpace c = false := by
  have hd : ("latest" : String).data = ['l', 'a', 't', 'e', 's', 't'] := rfl
  rw [hd] at h
  fin_cases h <;> exact ⟨by decide, by decide, by decide, by decide⟩

theorem pep440Core_head_fail (cs : List Char)
    (h : ∀ c ∈ cs, c ≠ 'v' ∧ c.isDigit = false) : pep440Core cs = none := by
  cases cs with
  | nil => rfl
  | cons c rest =>
    obtain ⟨hv, hd⟩ := h c (List.mem_cons_self c rest)
    unfold pep440Core stripV
    simp only [if_neg hv]
    simp only [takeDigits, hd]
    simp

theorem parse_version_substring_latest (t : String)
    (ht : t.data <:+: ("latest" : String).data) :
    parse_version (some t) = none := by
  by_cases h0 : t = ""
  · subst h0; rfl
  · have hsub : ∀ c ∈ t.data, c ∈ ("latest" : String).data :=
      fun c hc => ht.subset hc
    have hproc : ∀ c ∈ pyStrip (t.data.map Char.toLower),
        c ≠ 'v' ∧ c.isDigit = false := by
      intro c hc
      have h1 : c ∈ t.data.map Char.toLower := pyStrip_subset _ c hc
      obtain ⟨c', hc', rfl⟩ := List.mem_map.mp h1
      have hl := latest_chars c' (hsub c' hc')
      rw [hl.2.2.1]
      exact ⟨hl.1, hl.2.1⟩
    have hstep : parse_version (some t) =
        if t = "" then none
        else
          match pep440Parse t with
          | some v => if v.isPrerelease = true then none else some v
          | none => none := rfl
    rw [hstep, if_neg h0]
    have hp : pep440Parse t = pep440Core (pyStrip (t.data.map Char.toLower)) := rfl
    rw [hp, pep440Core_head_fail _ hproc]

/-- C10: a container whose image string carries no explicit tag parses to
version `"latest"`, and since every capture `re.search` can produce from
`"latest"` is one of its substrings — none of which is a valid version —
the current version never parses and the resolver returns no decision,
whatever the configuration, the regex or the registry answer. -/
theorem C10_latest_never_updates (cfg : Config) (regexSem : RegexSem)
    (fetch : TagFetch) (imageStr : String) (ref : ImageRef)
    (hre : ∀ p s t, regexSem p s = some t → t.data <:+: s.data)
    (hwt : ∀ p, dictGet (resolveOverride cfg
        [full_image ref.registry ref.user ref.image,
         ref.user ++ "/" ++ ref.image, ref.image]) "version_regex" = some p →
        p.truthy = true → ∃ pat, p = YVal.str pat)
    (href : parse_image imageStr = some ref)
    (hver : ref.version = "latest") :
    update cfg regexSem fetch imageStr = none := by
  have hcur : ∀ pattern : Option YVal,
      (∀ p, pattern = some p → p.truthy = true → ∃ pat, p = YVal.str pat) →
      parse_version (extract_version regexSem "latest" pattern) = none := by
    intro pattern hty
    match pattern with
    | none =>
      exact parse_version_substring_latest "latest" (List.infix_refl _)
    | some p =>
      by_cases hpt : p.truthy = true
      · obtain ⟨pat, rfl⟩ := hty p rfl hpt
        have hex : extract_version regexSem "latest" (some (.str pat)) =
            regexSem pat "latest" := by
          simp [extract_version, hpt]
        rw [hex]
        cases hr : regexSem pat "latest" with
        | none => rfl
        | some t => exact parse_version_substring_latest t (hre pat "latest" t hr)
      · have hpt' : p.truthy = false := by simpa using hpt
        have hex : extract_version regexSem "latest" (some p) = some "latest" := by
          simp [extract_version, hpt']
        rw [hex]
        exact parse_version_substring_latest "latest" (List.infix_refl _)
  simp only [update, href]
  split
  · rfl
  · rw [hver, hcur _ hwt]

theorem pyStrip_cons_of_not_space (c : Char) (l : List Char)
    (hc : isPySpace c = false) :
    pyStrip (c :: l) = c :: dropTrailing isPySpace l := by
  unfold pyStrip pyStripP
  rw [List.dropWhile_cons]
  simp only [hc, Bool.false_eq_true, if_false]
  rw [dropTrailing_cons]
  simp [hc]

theorem stripV_cons_ne_v (c : Char) (l : List Char) (hc : c ≠ 'v') :
    stripV (c :: l) = c :: l := by simp [stripV, hc]

theorem pep440Core_stripV_congr (a b : List Char) (h : stripV a = stripV b) :
    pep440Core a = pep440Core b := by
  unfold pep440Core
  rw [h]

theorem pep440Parse_leading_v (s : String) (c : Char)
    (hhead : s.data.head? = some c) (hd : c.isDigit = true) :
    pep440Parse ("v" ++ s) = pep440Parse s := by
  obtain ⟨rest, hrest⟩ : ∃ rest, s.data = c :: rest := by
    cases hs : s.data with
    | nil => rw [hs] at hhead; cases hhead
    | cons x xs =>
      rw [hs] at hhead
      exact ⟨xs, by rw [← Option.some.inj hhead]⟩
  have hdatav : ("v" ++ s).data = 'v' :: s.data := rfl
  have hlower : Char.toLower c = c := toLower_of_isDigit c hd
  have hnspace : isPySpace c = false := not_isPySpace_of_isDigit c hd
  have hnv : c ≠ 'v' := ne_v_of_isDigit c hd
  have hL : s.data.map Char.toLower = c :: rest.map Char.toLower := by
    rw [hrest, List.map_cons, hlower]
  have hlhs : pep440Parse ("v" ++ s) =
      pep440Core ('v' :: dropTrailing isPySpace (s.data.map Char.toLower)) := by
    unfold pep440Parse
    rw [hdatav, List.map_cons]
    rw [show Char.toLower 'v' = 'v' from rfl]
    rw [pyStrip_cons_of_not_space 'v' _ (by decide)]
  have hrhs : pep440Parse s =
      pep440Core (c :: dropTrailing isPySpace (rest.map Char.toLower)) := by
    unfold pep440Parse
    rw [hL, pyStrip_cons_of_not_space c _ hnspace]
  rw [hlhs, hrhs]
  apply pep440Core_stripV_congr
  have hdt : dropTrailing isPySpace (s.data.map Char.toLower) =
      c :: dropTrailing isPySpace (rest.map Char.toLower) := by
    rw [hL, dropTrailing_cons]
    simp [hnspace]
  rw [hdt]
  rw [show stripV ('v' :: c :: dropTrailing isPySpace (rest.map Char.toLower)) =
      c :: dropTrailing isPySpace (rest.map Char.toLower) from by simp [stripV]]
  rw [stripV_cons_ne_v c _ hnv]

/-- C6: `parse_version` accepts an optional leading `v`
(`parseVersion("v1.0.0") = parseVersion("1.0.0")`, and in general a
leading `v` before a digit-headed string is ignored), returns `none` for
every version flagged pre-release (such as `"2.0.0a1"`), for every
malformed string, and for an absent input. -/
theorem C6_parse_version_spec :
    parse_version (some "v1.0.0") = parse_version (some "1.0.0") ∧
    (∀ (s : String) (c : Char), s.data.head? = some c → c.isDigit = true →
      parse_version (some ("v" ++ s)) = parse_version (some s)) ∧
    (∀ (s : String) (v : PV), pep440Parse s = some v → v.isPrerelease = true →
      parse_version (some s) = none) ∧
    parse_version (some "2.0.0a1") = none ∧
    (∀ s : String, pep440Parse s = none → parse_version (some s) = none) ∧
    parse_version none = none := by
  have hstep : ∀ t : String, parse_version (some t) =
      if t = "" then none
      else
        match pep440Parse t with
        | some v => if v.isPrerelease = true then none else some v
        | none => none := fun _ => rfl
  refine ⟨by decide, ?_, ?_, by decide, ?_, rfl⟩
  · intro s c hhead hd
    have hne : s ≠ "" := by
      intro h
      rw [h] at hhead
      cases hhead
    have hnev : ("v" ++ s) ≠ "" := by
      intro h
      have : ("v" ++ s).data = [] := by rw [h]
      rw [show ("v" ++ s).data = 'v' :: s.data from rfl] at this
      cases this
    rw [hstep ("v" ++ s), if_neg hnev]
    rw [hstep s, if_neg hne]
    rw [pep440Parse_leading_v s c hhead hd]
  · intro s v hp hpre
    have hne : s ≠ "" := by
      intro h
      rw [h] at hp
      rw [show pep440Parse "" = none from rfl] at hp
      cases hp
    rw [hstep, if_neg hne, hp]
    simp [hpre]
  · intro s hp
    by_cases hne : s = ""
    · rw [hstep, if_pos hne]
    · rw [hstep, if_neg hne, hp]

/-- C6 witness: a pre-release (`1.2.3b0`, written `"1.2.3-beta"`) and a
malformed string both map to `none` (the repository's own
`test_parse_version` vectors). -/
theorem C6_witness :
    parse_version (some "1.2.3-beta") = none ∧
    parse_version (some "not-a-version") = none :=
  ⟨C6_parse_version_spec.2.2.1 "1.2.3-beta"
      ⟨0, [1, 2, 3], some (1, 0), none, none, none⟩ (by decide) (by decide),
   C6_parse_version_spec.2.2.2.2.1 "not-a-version" (by decide)⟩

/-- C10 witness: the bare image `"app"` (no tag) yields no decision even
though the registry offers a newer-looking tag. -/
theorem C10_witness :
    update cfgEmpty (fun _ _ => none) (fun _ _ _ _ => some ["9.9.9"])
      "app" = none :=
  C10_latest_never_updates cfgEmpty (fun _ _ => none)
    (fun _ _ _ _ => some ["9.9.9"]) "app" ⟨none, "_", "app", "latest"⟩
    (fun _ _ t h => Option.noConfusion h)
    (fun p hp _ => Option.noConfusion
      (show (none : Option YVal) = some p from hp))
    (by decide) rfl

/-! ## Claim C1: the selection logic of `update` -/

theorem mem_candidateTags (regexSem : RegexSem) (pat : Option YVal)
    (cv v : PV) (t : String) (tags : List String) :
    (v, t) ∈ candidateTags regexSem pat cv tags ↔
      t ∈ tags ∧ parse_version (extract_version regexSem t pat) = some v ∧
        pvLt cv v = true := by
  unfold candidateTags
  rw [List.mem_filterMap]
  constructor
  · rintro ⟨a, ha, hfa⟩
    rcases hp : parse_version (extract_version regexSem a pat) with _ | v'
    · simp only [hp] at hfa
      cases hfa
    · simp only [hp] at hfa
      by_cases hlt : pvLt cv v' = true
      · rw [if_pos hlt] at hfa
        obtain ⟨rfl, rfl⟩ : v' = v ∧ a = t := by
          have h1 := Option.some.inj hfa
          exact ⟨congrArg Prod.fst h1, congrArg Prod.snd h1⟩
        exact ⟨ha, hp, hlt⟩
      · rw [if_neg hlt] at hfa; cases hfa
  · rintro ⟨ht, hp, hlt⟩
    exact ⟨t, ht, by rw [hp]; simp [hlt]⟩

theorem pvLt_irrefl (a : PV) : pvLt a a = false := by
  simp [pvLt]

theorem pyMaxByFst_spec (x : PV × String) (xs : List (PV × String)) :
    pyMaxByFst x xs ∈ x :: xs ∧
      ∀ y ∈ x :: xs, pvLt (pyMaxByFst x xs).1 y.1 = false := by
  induction xs generalizing x with
  | nil =>
    refine ⟨List.mem_cons_self _ _, ?_⟩
    intro y hy
    rcases List.mem_cons.mp hy with rfl | hy
    · exact pvLt_irrefl _
    · cases hy
  | cons z zs ih =>
    have hstep : pyMaxByFst x (z :: zs) =
        pyMaxByFst (if pvLt x.1 z.1 then z else x) zs := rfl
    by_cases h : pvLt x.1 z.1 = true
    · rw [hstep, if_pos h]
      obtain ⟨hmem, hmax⟩ := ih z
      refine ⟨?_, ?_⟩
      · rcases List.mem_cons.mp hmem with hz | hzs
        · rw [hz]; exact List.mem_cons_of_mem _ (List.mem_cons_self _ _)
        · exact List.mem_cons_of_mem _ (List.mem_cons_of_mem _ hzs)
      · intro y hy
        rcases List.mem_cons.mp hy with rfl | hy
        · -- y = x: max ≥ z > x
          have hmz := hmax z (List.mem_cons_self _ _)
          simp only [pvLt, decide_eq_false_iff_not] at hmz ⊢
          simp only [pvLt, decide_eq_true_eq] at h
          intro hlt
          exact hmz (lt_trans hlt h)
        · exact hmax y hy
    · rw [hstep, if_neg h]
      have h' : pvLt x.1 z.1 = false := by simpa using h
      obtain ⟨hmem, hmax⟩ := ih x
      refine ⟨?_, ?_⟩
      · rcases List.mem_cons.mp hmem with hx | hxs
        · rw [hx]; exact List.mem_cons_self _ _
        · exact List.mem_cons_of_mem _ (List.mem_cons_of_mem _ hxs)
      · intro y hy
        rcases List.mem_cons.mp hy with rfl | hy
        · exact hmax y (List.mem_cons_self _ _)
        · rcases List.mem_cons.mp hy with rfl | hy
          · -- y = z: max ≥ x ≥ z (¬ x < z)
            have hmx := hmax x (List.mem_cons_self _ _)
            simp only [pvLt, decide_eq_false_iff_not] at hmx h' ⊢
            intro hlt
            rcases lt_trichotomy (cmpkey (pyMaxByFst x zs).1) (cmpkey x.1) with
              hc | hc | hc
            · exact hmx hc
            · exact h' (hc ▸ hlt)
            · exact h' (lt_trans hc hlt)
          · exact hmax y (List.mem_cons_of_mem _ hy)

theorem parse_version_empty : parse_version (some "") = none := rfl

theorem candidate_tag_ne_empty (regexSem : RegexSem) (pat : Option YVal)
    (v : PV) (t : String)
    (hre : ∀ p s e, regexSem p s = some e → e.data <:+: s.data)
    (hp : parse_version (extract_version regexSem t pat) = some v) : t ≠ "" := by
  rintro rfl
  cases pat with
  | none =>
    rw [show extract_version regexSem "" none = some "" from rfl,
      parse_version_empty] at hp
    cases hp
  | some p =>
    by_cases hpt : p.truthy = true
    · cases p with
      | str pat =>
        have hex : extract_version regexSem "" (some (.str pat)) =
            regexSem pat "" := by simp [extract_version, hpt]
        rw [hex] at hp
        cases hr : regexSem pat "" with
        | none => rw [hr] at hp; cases hp
        | some e =>
          rw [hr] at hp
          have hd : e.data = [] :=
            List.eq_nil_of_infix_nil (hre pat "" e hr)
          have he : e = "" := String.ext hd
          rw [he, parse_version_empty] at hp
          cases hp
      | null => simp [YVal.truthy] at hpt
      | bool b =>
        have hex : extract_version regexSem "" (some (.bool b)) = none := by
          simp [extract_version, hpt]
        rw [hex] at hp
        cases hp
      | int n =>
        have hex : extract_version regexSem "" (some (.int n)) = none := by
          simp [extract_version, hpt]
        rw [hex] at hp
        cases hp
      | list xs =>
        have hex : extract_version regexSem "" (some (.list xs)) = none := by
          simp [extract_version, hpt]
        rw [hex] at hp
        cases hp
      | dict es =>
        have hex : extract_version regexSem "" (some (.dict es)) = none := by
          simp [extract_version, hpt]
        rw [hex] at hp
        cases hp
    · have hpt' : p.truthy = false := by simpa using hpt
      have hex : extract_version regexSem "" (some p) = some "" := by
        simp [extract_version, hpt']
      rw [hex, parse_version_empty] at hp
      cases hp

/-- C1: under any configuration, regex and registry answer — given the
image parses, updates are not disabled, and the current version parses —
`update` keeps exactly the tags whose extracted-and-parsed version is
strictly greater than the current one (first conjunct), returns no
decision when none remain (second), and otherwise returns the raw tag of
a maximum of the kept set by parsed-version ordering, paired with the
container's full image id (third). -/
theorem C1_resolver_selects_max_newer (cfg : Config) (regexSem : RegexSem)
    (fetch : TagFetch) (imageStr : String) (ref : ImageRef) (cv : PV)
    (ovr : List (String × YVal)) (tags : List String)
    (hre : ∀ p s e, regexSem p s = some e → e.data <:+: s.data)
    (href : parse_image imageStr = some ref)
    (hovr : resolveOverride cfg
      [full_image ref.registry ref.user ref.image,
       ref.user ++ "/" ++ ref.image, ref.image] = ovr)
    (hupd : dictGet ovr "update" ≠ some (YVal.bool false))
    (hcv : parse_version (extract_version regexSem ref.version
      (dictGet ovr "version_regex")) = some cv)
    (htags : find_versions cfg fetch ref.registry ref.user ref.image
      (dictGet ovr "username") (dictGet ovr "password") = tags) :
    (∀ (v : PV) (t : String),
      (v, t) ∈ candidateTags regexSem (dictGet ovr "version_regex") cv tags ↔
        t ∈ tags ∧
        parse_version (extract_version regexSem t
          (dictGet ovr "version_regex")) = some v ∧
        pvLt cv v = true) ∧
    (candidateTags regexSem (dictGet ovr "version_regex") cv tags = [] →
      update cfg regexSem fetch imageStr = none) ∧
    (∀ x xs,
      candidateTags regexSem (dictGet ovr "version_regex") cv tags = x :: xs →
      ∃ (v : PV) (t : String),
        update cfg regexSem fetch imageStr =
          some (full_image ref.registry ref.user ref.image, ref.image, t) ∧
        (v, t) ∈ candidateTags regexSem (dictGet ovr "version_regex") cv tags ∧
        ∀ (v' : PV) (t' : String),
          (v', t') ∈ candidateTags regexSem (dictGet ovr "version_regex") cv tags →
            pvLt v v' = false) := by
  refine ⟨fun v t => mem_candidateTags _ _ _ _ _ _, ?_, ?_⟩
  · intro hk
    simp only [update, href]
    rw [hovr]
    split
    · rfl
    · simp only [hcv, htags]
      by_cases hte : tags.isEmpty
      · rw [if_pos hte]
      · rw [if_neg hte, hk]
  · intro x xs hk
    simp only [update, href]
    rw [hovr]
    split
    · rename_i heq
      exact absurd heq hupd
    · simp only [hcv, htags]
      have htne : tags.isEmpty = false := by
        rcases hem : tags with _ | _
        · rw [hem] at hk
          rw [show candidateTags regexSem (dictGet ovr "version_regex") cv [] = []
            from rfl] at hk
          cases hk
        · rfl
      rw [if_neg (by simp [htne])]
      simp only [hk]
      obtain ⟨hmem, hmax⟩ := pyMaxByFst_spec x xs
      rcases hm : pyMaxByFst x xs with ⟨mv, mt⟩
      rw [hm] at hmem hmax
      have hmemK : (mv, mt) ∈ candidateTags regexSem
          (dictGet ovr "version_regex") cv tags := by
        rw [hk]; exact hmem
      have hparse := ((mem_candidateTags regexSem _ cv _ _ _).mp hmemK).2.1
      have hne : mt ≠ "" := candidate_tag_ne_empty regexSem _ _ _ hre hparse
      dsimp only
      rw [if_neg hne]
      refine ⟨mv, mt, rfl, hmem, ?_⟩
      intro v2 t2 hmem2
      exact hmax (v2, t2) hmem2

/-- C1 witness: with current version `1.0.0` and tags
`{1.0.1, 1.0.2, 0.9.0}` the resolver selects `1.0.2` (and pairs it with
the full image id of `app`). -/
theorem C1_witness :
    update cfgEmpty (fun _ _ => none)
      (fun _ _ _ _ => some ["1.0.1", "1.0.2", "0.9.0"]) "app:1.0.0" =
      some ("_/app", "app", "1.0.2") := by
  obtain ⟨v, t, hup, hmem, hmax⟩ :=
    (C1_resolver_selects_max_newer cfgEmpty (fun _ _ => none)
      (fun _ _ _ _ => some ["1.0.1", "1.0.2", "0.9.0"]) "app:1.0.0"
      ⟨none, "_", "app", "1.0.0"⟩ ⟨0, [1, 0, 0], none, none, none, none⟩
      [] ["1.0.1", "1.0.2", "0.9.0"]
      (fun _ _ _ h => Option.noConfusion h)
      (by decide) rfl (fun h => Option.noConfusion h) (by decide) rfl).2.2
      (⟨0, [1, 0, 1], none, none, none, none⟩, "1.0.1")
      [(⟨0, [1, 0, 2], none, none, none, none⟩, "1.0.2")]
      (by decide)
  have hmem' : (v, t) ∈
      [((⟨0, [1, 0, 1], none, none, none, none⟩ : PV), "1.0.1"),
       (⟨0, [1, 0, 2], none, none, none, none⟩, "1.0.2")] := by
    rw [show candidateTags (fun _ _ => none) (dictGet [] "version_regex")
        ⟨0, [1, 0, 0], none, none, none, none⟩ ["1.0.1", "1.0.2", "0.9.0"] =
        [((⟨0, [1, 0, 1], none, none, none, none⟩ : PV), "1.0.1"),
         (⟨0, [1, 0, 2], none, none, none, none⟩, "1.0.2")] from by decide] at hmem
    exact hmem
  rcases List.mem_cons.mp hmem' with h1 | h1
  · exfalso
    have hmx := hmax ⟨0, [1, 0, 2], none, none, none, none⟩ "1.0.2" (by decide)
    rw [show v = ⟨0, [1, 0, 1], none, none, none, none⟩ from
      congrArg Prod.fst h1] at hmx
    exact absurd hmx (by decide)
  · rcases List.mem_cons.mp h1 with h2 | h2
    · rw [show t = "1.0.2" from congrArg Prod.snd h2] at hup
      exact hup
    · cases h2


/-! ## Claim C2: the bearer-challenge flow of `list_tags` -/

/-- C2: on a 401 tags-list response whose `WWW-Authenticate` header is a
`Bearer` challenge, `list_tags` parses the challenge into key/value
parameters (quoted values unquoted — see `parseChallenge`); with no
`realm` parameter it returns the empty list; otherwise it GETs exactly
the realm URL with the remaining challenge parameters as query and the
same credentials; on a successful token response whose JSON object has
neither a `token` nor an `access_token` value it raises; with a string
token it retries the original tags URL carrying
`Authorization: Bearer <token>` (and no basic credentials), and any
non-success status on that retry raises. -/
theorem C2_bearer_challenge_flow (http : Request → Response)
    (registry_host : Option String) (repo : String)
    (username password : Option String) (r0 : Response)
    (url www : String) (auth : Option (String × String))
    (params : List (String × String))
    (hurl : "https://" ++ normHost registry_host ++ "/v2/" ++ repo ++
      "/tags/list" = url)
    (hauth : mkAuth username password = auth)
    (h0 : http ⟨url, [], auth, []⟩ = r0)
    (hs : r0.status = 401)
    (hw : headerGetD r0.headers "WWW-Authenticate" "" = www)
    (hb : "bearer".data.isPrefixOf (pyLower www).data = true)
    (hparams : parseChallenge (pyStrip (www.data.drop 7)) = params) :
    (strDictGet params "realm" = none →
      list_tags http registry_host repo username password =
        (.ok (.list []), [⟨url, [], auth, []⟩])) ∧
    (∀ realm : String, strDictGet params "realm" = some realm → realm ≠ "" →
      (⟨realm, strDictRemove params "realm", auth, []⟩ : Request) ∈
        (list_tags http registry_host repo username password).2 ∧
      ∀ r1 : Response, http ⟨realm, strDictRemove params "realm", auth, []⟩ = r1 →
        statusOk r1.status = true →
        ∀ fs, r1.body = YVal.dict fs →
          (pyOr (dictGet fs "token") (dictGet fs "access_token") = none →
            (list_tags http registry_host repo username password).1 =
              .error .noToken) ∧
          (∀ ts : String,
            pyOr (dictGet fs "token") (dictGet fs "access_token") =
              some (.str ts) → ts ≠ "" →
            (⟨url, [], none, [("Authorization", "Bearer " ++ ts)]⟩ : Request) ∈
              (list_tags http registry_host repo username password).2 ∧
            ∀ r2 : Response,
              http ⟨url, [], none, [("Authorization", "Bearer " ++ ts)]⟩ = r2 →
              statusOk r2.status = false →
              (list_tags http registry_host repo username password).1 =
                .error (.httpStatus r2.status))) := by
  subst hurl hauth hparams
  have hne200 : (r0.status = 200) = False := by
    rw [hs]; simp
  have hb' : List.isPrefixOf ['b', 'e', 'a', 'r', 'e', 'r']
      (pyLower www).data = true := hb
  have hcond : (decide (r0.status = 401) && List.isPrefixOf
      ['b', 'e', 'a', 'r', 'e', 'r'] (pyLower www).data) = true := by
    rw [hs, hb']
    simp
  constructor
  · intro hrealm
    simp only [list_tags, h0, hne200, if_false, hw, hcond, if_true, hrealm]
  · intro realm hrealm hrne
    have hifne : (realm = "") = False := by simp [hrne]
    constructor
    · simp only [list_tags, h0, hne200, if_false, hw, hcond, if_true, hrealm,
        hifne]
      cases hr1 : http ⟨realm, strDictRemove
          (parseChallenge (pyStrip (www.data.drop 7))) "realm",
          mkAuth username password, []⟩ with
      | mk st hd bd =>
        by_cases hok : statusOk st = true
        · simp only [hok, Bool.not_true, Bool.false_eq_true, if_false]
          cases bd with
          | dict fs =>
            cases htok : pyOr (dictGet fs "token") (dictGet fs "access_token") with
            | none => simp [htok]
            | some tok =>
              by_cases htt : tok.truthy = true
              · simp only [htok, htt, Bool.not_true, Bool.false_eq_true, if_false]
                split <;> simp
              · have htt' : tok.truthy = false := by simpa using htt
                simp [htok, htt']
          | null => simp
          | bool b => simp
          | int n => simp
          | str s2 => simp
          | list xs => simp
        · have hok' : statusOk st = false := by simpa using hok
          simp [hok']
    · intro r1 hr1 hok fs hfs
      constructor
      · intro htok
        simp only [list_tags, h0, hne200, if_false, hw, hcond, if_true,
          hrealm, hifne, hr1, hok, Bool.not_true, Bool.false_eq_true,
          if_false, hfs, htok]
      · intro ts htok hts
        have htt : (YVal.str ts).truthy = true := by
          simp [YVal.truthy, hts]
        constructor
        · simp only [list_tags, h0, hne200, if_false, hw, hcond, if_true,
            hrealm, hifne, hr1, hok, Bool.not_true, Bool.false_eq_true,
            if_false, hfs, htok, htt]
          split <;> simp [YVal.pyStr]
        · intro r2 hr2 hok2
          simp only [list_tags, h0, hne200, if_false, hw, hcond, if_true,
            hrealm, hifne, hr1, hok, Bool.not_true, Bool.false_eq_true,
            if_false, hfs, htok, htt]
          simp only [show (YVal.str ts).pyStr = ts from rfl, hr2, hok2,
            Bool.not_false, if_true]

set_option maxRecDepth 8192 in
/-- C2 witness: the specification's example challenge
(`realm="https://auth.example/token",service="registry",scope="repository:org/app:pull"`):
the client hits exactly that realm URL with those query parameters, then
retries the tags request bearing the returned token. -/
theorem C2_witness :
    reqC2_1 ∈ (list_tags httpC2 (some "ghcr.io") "org/app" none none).2 ∧
    reqC2_2 ∈ (list_tags httpC2 (some "ghcr.io") "org/app" none none).2 := by
  have h := C2_bearer_challenge_flow httpC2 (some "ghcr.io") "org/app"
    none none ⟨401, [("WWW-Authenticate", wwwC2)], .null⟩
    "https://ghcr.io/v2/org/app/tags/list" wwwC2 none
    [("realm", "https://auth.example/token"), ("service", "registry"),
     ("scope", "repository:org/app:pull")]
    rfl rfl rfl rfl rfl (by decide) (by decide)
  obtain ⟨hm1, hrest⟩ := h.2 "https://auth.example/token" (by decide) (by decide)
  obtain ⟨hm2, -⟩ := (hrest ⟨200, [], .dict [("token", .str "tok123")]⟩ rfl rfl
    [("token", .str "tok123")] rfl).2 "tok123" rfl (by decide)
  exact ⟨hm1, hm2⟩

theorem taskProg_shape (ds : List Bool) :
    taskProg ds = [] ∨ ∃ ds', taskProg ds =
      Act.acquire :: Act.write :: Act.stage :: Act.commit :: Act.release ::
        taskProg ds' := by
  induction ds with
  | nil => exact Or.inl rfl
  | cons d ds ih =>
    by_cases hd : d = true
    · right
      exact ⟨ds, by simp [taskProg, hd, commitBlock]⟩
    · have hd' : d = false := by simpa using hd
      rw [show taskProg (d :: ds) = taskProg ds from by simp [taskProg, hd']]
      exact ih

theorem insideShape_write (p : List Act) (h : InsideShape (Act.write :: p)) :
    ∃ ds, p = Act.stage :: Act.commit :: Act.release :: taskProg ds := by
  obtain ⟨ds, h | h | h | h⟩ := h
  · exact ⟨ds, by simpa using h⟩
  · simp at h
  · simp at h
  · simp at h

theorem insideShape_stage (p : List Act) (h : InsideShape (Act.stage :: p)) :
    ∃ ds, p = Act.commit :: Act.release :: taskProg ds := by
  obtain ⟨ds, h | h | h | h⟩ := h
  · simp at h
  · exact ⟨ds, by simpa using h⟩
  · simp at h
  · simp at h

theorem insideShape_commit (p : List Act) (h : InsideShape (Act.commit :: p)) :
    ∃ ds, p = Act.release :: taskProg ds := by
  obtain ⟨ds, h | h | h | h⟩ := h
  · simp at h
  · simp at h
  · exact ⟨ds, by simpa using h⟩
  · simp at h

theorem insideShape_release (p : List Act) (h : InsideShape (Act.release :: p)) :
    ∃ ds, p = taskProg ds := by
  obtain ⟨ds, h | h | h | h⟩ := h
  · simp at h
  · simp at h
  · simp at h
  · exact ⟨ds, by simpa using h⟩

theorem insideShape_not_acquire (p : List Act)
    (h : InsideShape (Act.acquire :: p)) : False := by
  obtain ⟨ds, h | h | h | h⟩ := h <;> simp at h

theorem outsideShape_cons (a : Act) (p : List Act)
    (h : OutsideShape (a :: p)) :
    a = Act.acquire ∧ ∃ ds, p =
      Act.write :: Act.stage :: Act.commit :: Act.release :: taskProg ds := by
  obtain ⟨ds, hds⟩ := h
  rcases taskProg_shape ds with h0 | ⟨ds', h0⟩
  · rw [h0] at hds; cases hds
  · rw [h0] at hds
    simp only [List.cons.injEq] at hds
    exact ⟨hds.1, ds', hds.2⟩

theorem lt_length_of_getElem?_eq_some {α : Type} (l : List α) (i : Nat)
    (a : α) (h : l[i]? = some a) : i < l.length := by
  by_contra hc
  rw [List.getElem?_eq_none (by omega)] at h
  cases h

theorem sysInv_step (s : Sys) (i : Nat) (hinv : SysInv s) :
    SysInv (step s i).1 := by
  obtain ⟨hbound, hshape⟩ := hinv
  unfold step
  cases hti : s.tasks[i]? with
  | none =>
    dsimp only
    exact ⟨hbound, hshape⟩
  | some p =>
    cases p with
    | nil =>
      dsimp only
      exact ⟨hbound, hshape⟩
    | cons a rest =>
      have hlen : i < s.tasks.length := lt_length_of_getElem?_eq_some _ _ _ hti
      cases a with
      | acquire =>
        dsimp only
        by_cases hl : s.lock = none
        · rw [if_pos hl]
          refine ⟨?_, ?_⟩
          · intro j hj
            rw [List.length_set]
            have hij : i = j := by injection hj
            exact hij ▸ hlen
          · intro j p' hp'
            by_cases hij : j = i
            · subst hij
              rw [List.getElem?_set_self hlen] at hp'
              obtain rfl : rest = p' := by injection hp'
              refine ⟨fun _ => ?_, fun hne => absurd rfl hne⟩
              have hout := (hshape j _ hti).2 (by rw [hl]; simp)
              obtain ⟨-, ds, hrest⟩ := outsideShape_cons _ _ hout
              exact ⟨ds, Or.inl hrest⟩
            · rw [List.getElem?_set_ne (fun e => hij e.symm)] at hp'
              refine ⟨fun hli => ?_, fun _ => ?_⟩
              · exact absurd (Option.some.inj hli).symm hij
              · exact (hshape j _ hp').2 (by rw [hl]; simp)
        · rw [if_neg hl]
          exact ⟨hbound, hshape⟩
      | release =>
        dsimp only
        by_cases hli : s.lock = some i
        · refine ⟨fun j hj => Option.noConfusion hj, ?_⟩
          intro j p' hp'
          by_cases hij : j = i
          · subst hij
            rw [List.getElem?_set_self hlen] at hp'
            obtain rfl : rest = p' := by injection hp'
            refine ⟨fun h => Option.noConfusion h, fun _ => ?_⟩
            exact insideShape_release _ ((hshape j _ hti).1 hli)
          · rw [List.getElem?_set_ne (fun e => hij e.symm)] at hp'
            refine ⟨fun h => Option.noConfusion h, fun _ => ?_⟩
            refine (hshape j _ hp').2 ?_
            rw [hli]
            intro he
            exact hij (Option.some.inj he).symm
        · exfalso
          have hout := (hshape i _ hti).2 hli
          obtain ⟨ha, -⟩ := outsideShape_cons _ _ hout
          cases ha
      | write =>
        dsimp only
        by_cases hli : s.lock = some i
        · refine ⟨?_, ?_⟩
          · intro j hj
            rw [List.length_set]
            exact hbound j hj
          · intro j p' hp'
            by_cases hij : j = i
            · subst hij
              rw [List.getElem?_set_self hlen] at hp'
              obtain rfl : rest = p' := by injection hp'
              obtain ⟨ds, hrest⟩ := insideShape_write _ ((hshape j _ hti).1 hli)
              exact ⟨fun _ => ⟨ds, Or.inr (Or.inl hrest)⟩,
                fun hne => absurd hli hne⟩
            · rw [List.getElem?_set_ne (fun e => hij e.symm)] at hp'
              exact hshape j _ hp'
        · exfalso
          have hout := (hshape i _ hti).2 hli
          obtain ⟨ha, -⟩ := outsideShape_cons _ _ hout
          cases ha
      | stage =>
        dsimp only
        by_cases hli : s.lock = some i
        · refine ⟨?_, ?_⟩
          · intro j hj
            rw [List.length_set]
            exact hbound j hj
          · intro j p' hp'
            by_cases hij : j = i
            · subst hij
              rw [List.getElem?_set_self hlen] at hp'
              obtain rfl : rest = p' := by injection hp'
              obtain ⟨ds, hrest⟩ := insideShape_stage _ ((hshape j _ hti).1 hli)
              exact ⟨fun _ => ⟨ds, Or.inr (Or.inr (Or.inl hrest))⟩,
                fun hne => absurd hli hne⟩
            · rw [List.getElem?_set_ne (fun e => hij e.symm)] at hp'
              exact hshape j _ hp'
        · exfalso
          have hout := (hshape i _ hti).2 hli
          obtain ⟨ha, -⟩ := outsideShape_cons _ _ hout
          cases ha
      | commit =>
        dsimp only
        by_cases hli : s.lock = some i
        · refine ⟨?_, ?_⟩
          · intro j hj
            rw [List.length_set]
            exact hbound j hj
          · intro j p' hp'
            by_cases hij : j = i
            · subst hij
              rw [List.getElem?_set_self hlen] at hp'
              obtain rfl : rest = p' := by injection hp'
              obtain ⟨ds, hrest⟩ := insideShape_commit _ ((hshape j _ hti).1 hli)
              exact ⟨fun _ => ⟨ds, Or.inr (Or.inr (Or.inr hrest))⟩,
                fun hne => absurd hli hne⟩
            · rw [List.getElem?_set_ne (fun e => hij e.symm)] at hp'
              exact hshape j _ hp'
        · exfalso
          have hout := (hshape i _ hti).2 hli
          obtain ⟨ha, -⟩ := outsideShape_cons _ _ hout
          cases ha

theorem sysInv_init (dss : List (List Bool)) : SysInv (initSys dss) := by
  refine ⟨fun j hj => Option.noConfusion hj, ?_⟩
  intro i p hp
  refine ⟨fun h => Option.noConfusion h, fun _ => ?_⟩
  simp only [initSys, List.getElem?_map] at hp
  cases hds : dss[i]? with
  | none => rw [hds] at hp; cases hp
  | some ds =>
    rw [hds] at hp
    obtain rfl : taskProg ds = p := by injection hp
    exact ⟨ds, rfl⟩

theorem sysInv_run (sched : List Nat) (s : Sys) (hinv : SysInv s) :
    SysInv (runSched s sched).1 := by
  induction sched generalizing s with
  | nil => exact hinv
  | cons c rest ih =>
    have hrun : runSched s (c :: rest) =
        ((runSched (step s c).1 rest).1,
          (step s c).2.toList ++ (runSched (step s c).1 rest).2) := rfl
    rw [hrun]
    exact ih _ (sysInv_step s c hinv)

theorem mutex_of_inv (s : Sys) (hinv : SysInv s) (i j : Nat)
    (hi : insideSection s i) (hj : insideSection s j) : i = j := by
  obtain ⟨ai, pi, hpi, hai⟩ := hi
  obtain ⟨aj, pj, hpj, haj⟩ := hj
  have hli : s.lock = some i := by
    by_contra hne
    have hout := (hinv.2 i _ hpi).2 hne
    obtain ⟨ha, -⟩ := outsideShape_cons _ _ hout
    exact hai ha
  have hlj : s.lock = some j := by
    by_contra hne
    have hout := (hinv.2 j _ hpj).2 hne
    obtain ⟨ha, -⟩ := outsideShape_cons _ _ hout
    exact haj ha
  rw [hli] at hlj
  exact Option.some.inj hlj

theorem step_of_other (s : Sys) (c i : Nat) (hinv : SysInv s)
    (hlock : s.lock = some i) (hci : c ≠ i) : step s c = (s, none) := by
  unfold step
  cases htc : s.tasks[c]? with
  | none => rfl
  | some p =>
    cases p with
    | nil => rfl
    | cons a r =>
      have hout := (hinv.2 c _ htc).2 (by
        rw [hlock]
        intro he
        exact hci (Option.some.inj he).symm)
      obtain ⟨rfl, -⟩ := outsideShape_cons _ _ hout
      dsimp only
      rw [if_neg (by rw [hlock]; simp)]

theorem pending_blocks (sched : List Nat) (s : Sys) (i : Nat)
    (hinv : SysInv s) (hlock : s.lock = some i)
    (hpend : ∃ p, s.tasks[i]? = some p ∧ PendingCommit p) :
    ∀ (q j : Nat), ((runSched s sched).2)[q]? = some (j, Act.write) → j ≠ i →
      ∃ m : Nat, m < q ∧ ((runSched s sched).2)[m]? = some (i, Act.commit) := by
  induction sched generalizing s with
  | nil =>
    intro q j hq hne
    simp [runSched] at hq
  | cons c rest ih =>
    intro q j hq hne
    have hrun : runSched s (c :: rest) =
        ((runSched (step s c).1 rest).1,
          (step s c).2.toList ++ (runSched (step s c).1 rest).2) := rfl
    rw [hrun] at hq ⊢
    obtain ⟨p, hp, hpend'⟩ := hpend
    by_cases hci : c = i
    · subst hci
      obtain ⟨ds, hform | hform⟩ := hpend'
      · -- next action: stage
        have hstep : step s c =
            (⟨s.tasks.set c (Act.commit :: Act.release :: taskProg ds), s.lock⟩,
             some (c, Act.stage)) := by
          unfold step
          rw [hp, hform]
        rw [hstep] at hq ⊢
        simp only [Option.toList, List.cons_append, List.nil_append] at hq ⊢
        have hlen : c < s.tasks.length := lt_length_of_getElem?_eq_some _ _ _ hp
        have hinv' : SysInv (⟨s.tasks.set c
            (Act.commit :: Act.release :: taskProg ds), s.lock⟩ : Sys) := by
          have := sysInv_step s c hinv
          rw [hstep] at this
          exact this
        cases q with
        | zero =>
          rw [List.getElem?_cons_zero] at hq
          simp at hq
        | succ q' =>
          rw [List.getElem?_cons_succ] at hq
          obtain ⟨m', hm', hcm⟩ := ih _ hinv' hlock
            ⟨Act.commit :: Act.release :: taskProg ds,
             by rw [List.getElem?_set_self hlen],
             ⟨ds, Or.inr rfl⟩⟩ q' j hq hne
          exact ⟨m' + 1, by omega, by rw [List.getElem?_cons_succ]; exact hcm⟩
      · -- next action: commit
        have hstep : step s c =
            (⟨s.tasks.set c (Act.release :: taskProg ds), s.lock⟩,
             some (c, Act.commit)) := by
          unfold step
          rw [hp, hform]
        rw [hstep] at hq ⊢
        simp only [Option.toList, List.cons_append, List.nil_append] at hq ⊢
        cases q with
        | zero =>
          rw [List.getElem?_cons_zero] at hq
          simp at hq
        | succ q' =>
          exact ⟨0, by omega, by rw [List.getElem?_cons_zero]⟩
    · rw [step_of_other s c i hinv hlock hci] at hq ⊢
      simp only [Option.toList, List.nil_append] at hq ⊢
      exact ih s hinv hlock ⟨p, hp, hpend'⟩ q j hq hne

theorem step_write_inv (s : Sys) (c i : Nat) (s' : Sys)
    (hinv : SysInv s)
    (hstep : step s c = (s', some (i, Act.write))) :
    c = i ∧ s'.lock = some i ∧
      ∃ ds, s'.tasks[i]? =
        some (Act.stage :: Act.commit :: Act.release :: taskProg ds) := by
  unfold step at hstep
  cases htc : s.tasks[c]? with
  | none =>
    rw [htc] at hstep
    injection hstep with h1 h2
    cases h2
  | some p =>
    rw [htc] at hstep
    cases p with
    | nil =>
      injection hstep with h1 h2
      cases h2
    | cons a r =>
      cases a with
      | acquire =>
        dsimp only at hstep
        by_cases hl : s.lock = none
        · rw [if_pos hl] at hstep
          injection hstep with h1 h2
          injection h2 with h3
          simp at h3
        · rw [if_neg hl] at hstep
          injection hstep with h1 h2
          cases h2
      | release =>
        dsimp only at hstep
        injection hstep with h1 h2
        injection h2 with h3
        simp at h3
      | write =>
        dsimp only at hstep
        injection hstep with h1 h2
        injection h2 with h3
        have hci : c = i := by
          have := Prod.mk.injEq c Act.write i Act.write ▸ h3
          exact (by simpa using h3 : c = i ∧ True).1
        have hlen : c < s.tasks.length := lt_length_of_getElem?_eq_some _ _ _ htc
        have hlock : s.lock = some c := by
          by_contra hne
          obtain ⟨ha, -⟩ := outsideShape_cons _ _ ((hinv.2 c _ htc).2 hne)
          cases ha
        obtain ⟨ds, hr⟩ := insideShape_write _ ((hinv.2 c _ htc).1 hlock)
        subst hci
        refine ⟨rfl, ?_, ds, ?_⟩
        · rw [← h1]
          exact hlock
        · rw [← h1]
          dsimp only
          rw [List.getElem?_set_self hlen, hr]
      | stage =>
        dsimp only at hstep
        injection hstep with h1 h2
        injection h2 with h3
        simp at h3
      | commit =>
        dsimp only at hstep
        injection hstep with h1 h2
        injection h2 with h3
        simp at h3

theorem noInterleave_of_inv (sched : List Nat) (s : Sys) (hinv : SysInv s) :
    noInterleavedWrite (runSched s sched).2 := by
  induction sched generalizing s with
  | nil =>
    intro p q i j hpq hp hq hne
    simp [runSched] at hp
  | cons c rest ih =>
    intro p q i j hpq hp hq hne
    have hrun : runSched s (c :: rest) =
        ((runSched (step s c).1 rest).1,
          (step s c).2.toList ++ (runSched (step s c).1 rest).2) := rfl
    rw [hrun] at hp hq ⊢
    rcases hstep : step s c with ⟨s', e⟩
    rw [hstep] at hp hq
    dsimp only at hp hq ⊢
    have hinv' : SysInv s' := by
      have := sysInv_step s c hinv
      rw [hstep] at this
      exact this
    cases e with
    | none =>
      simp only [Option.toList, List.nil_append] at hp hq ⊢
      exact ih s' hinv' p q i j hpq hp hq hne
    | some ev =>
      simp only [Option.toList, List.cons_append] at hp hq ⊢
      cases p with
      | zero =>
        rw [List.getElem?_cons_zero] at hp
        obtain rfl : ev = (i, Act.write) := by injection hp
        obtain ⟨rfl, hlock', ds, hform⟩ := step_write_inv s c i s' hinv hstep
        cases q with
        | zero => omega
        | succ q' =>
          rw [List.getElem?_cons_succ] at hq
          obtain ⟨m', hm', hcm⟩ := pending_blocks rest s' c hinv' hlock'
            ⟨_, hform, ⟨ds, Or.inl rfl⟩⟩ q' j hq (Ne.symm hne)
          exact ⟨m' + 1, by omega, by omega, by
            rw [List.getElem?_cons_succ]; exact hcm⟩
      | succ p' =>
        cases q with
        | zero => omega
        | succ q' =>
          rw [List.getElem?_cons_succ] at hp hq
          obtain ⟨m', hm1, hm2, hcm⟩ := ih s' hinv' p' q' i j (by omega) hp hq hne
          exact ⟨m' + 1, by omega, by omega, by
            rw [List.getElem?_cons_succ]; exact hcm⟩

theorem step_none_eq (s : Sys) (c : Nat) (s' : Sys)
    (hstep : step s c = (s', none)) : s' = s := by
  unfold step at hstep
  cases htc : s.tasks[c]? with
  | none =>
    rw [htc] at hstep
    exact (Prod.mk.injEq _ _ _ _ ▸ hstep).1.symm ▸ rfl
  | some p =>
    rw [htc] at hstep
    cases p with
    | nil =>
      injection hstep with h1 h2
      exact h1.symm
    | cons a r =>
      cases a with
      | acquire =>
        dsimp only at hstep
        by_cases hl : s.lock = none
        · rw [if_pos hl] at hstep
          injection hstep with h1 h2
          cases h2
        · rw [if_neg hl] at hstep
          injection hstep with h1 h2
          exact h1.symm
      | release =>
        dsimp only at hstep
        injection hstep with h1 h2
        cases h2
      | write =>
        dsimp only at hstep
        injection hstep with h1 h2
        cases h2
      | stage =>
        dsimp only at hstep
        injection hstep with h1 h2
        cases h2
      | commit =>
        dsimp only at hstep
        injection hstep with h1 h2
        cases h2

theorem step_emit (s : Sys) (c : Nat) (s' : Sys) (j : Nat) (b : Act)
    (hstep : step s c = (s', some (j, b))) :
    j = c ∧ ∃ r, s.tasks[c]? = some (b :: r) ∧ s'.tasks = s.tasks.set c r := by
  unfold step at hstep
  cases htc : s.tasks[c]? with
  | none =>
    rw [htc] at hstep
    injection hstep with h1 h2
    cases h2
  | some p =>
    rw [htc] at hstep
    cases p with
    | nil =>
      injection hstep with h1 h2
      cases h2
    | cons a r =>
      cases a with
      | acquire =>
        dsimp only at hstep
        by_cases hl : s.lock = none
        · rw [if_pos hl] at hstep
          injection hstep with h1 h2
          injection h2 with h3
          obtain ⟨rfl, rfl⟩ : j = c ∧ b = Act.acquire := by
            simpa using h3.symm
          exact ⟨rfl, r, rfl, by rw [← h1]⟩
        · rw [if_neg hl] at hstep
          injection hstep with h1 h2
          cases h2
      | release =>
        dsimp only at hstep
        injection hstep with h1 h2
        injection h2 with h3
        obtain ⟨rfl, rfl⟩ : j = c ∧ b = Act.release := by
          simpa using h3.symm
        exact ⟨rfl, r, rfl, by rw [← h1]⟩
      | write =>
        dsimp only at hstep
        injection hstep with h1 h2
        injection h2 with h3
        obtain ⟨rfl, rfl⟩ : j = c ∧ b = Act.write := by
          simpa using h3.symm
        exact ⟨rfl, r, rfl, by rw [← h1]⟩
      | stage =>
        dsimp only at hstep
        injection hstep with h1 h2
        injection h2 with h3
        obtain ⟨rfl, rfl⟩ : j = c ∧ b = Act.stage := by
          simpa using h3.symm
        exact ⟨rfl, r, rfl, by rw [← h1]⟩
      | commit =>
        dsimp only at hstep
        injection hstep with h1 h2
        injection h2 with h3
        obtain ⟨rfl, rfl⟩ : j = c ∧ b = Act.commit := by
          simpa using h3.symm
        exact ⟨rfl, r, rfl, by rw [← h1]⟩

/-- The number of occurrences of action `a` still to run in task `i`. -/
def remCount (s : Sys) (i : Nat) (a : Act) : Nat :=
  ((s.tasks[i]?).getD []).count a

theorem run_count (sched : List Nat) (s : Sys) (i : Nat) (a : Act) :
    ((runSched s sched).2).count (i, a) + remCount (runSched s sched).1 i a
      = remCount s i a := by
  induction sched generalizing s with
  | nil => simp [runSched]
  | cons c rest ih =>
    have hrun : runSched s (c :: rest) =
        ((runSched (step s c).1 rest).1,
          (step s c).2.toList ++ (runSched (step s c).1 rest).2) := rfl
    rw [hrun]
    rcases hstep : step s c with ⟨s', e⟩
    dsimp only
    cases e with
    | none =>
      have hs : s' = s := step_none_eq s c s' hstep
      subst hs
      simpa using ih s'
    | some ev =>
      obtain ⟨j, b⟩ := ev
      obtain ⟨rfl, r, hr, hset⟩ := step_emit s c s' j b hstep
      have hlen : j < s.tasks.length := lt_length_of_getElem?_eq_some _ _ _ hr
      simp only [Option.toList, List.cons_append, List.nil_append,
        List.count_cons]
      by_cases hic : i = j
      · subst hic
        have hrem' : remCount s' i a = r.count a := by
          unfold remCount
          rw [hset, List.getElem?_set_self hlen]
          rfl
        have hrems : remCount s i a = (b :: r).count a := by
          unfold remCount
          rw [hr]
          rfl
        rw [hrems]
        have := ih s'
        rw [hrem'] at this
        simp only [List.count_cons, Prod.mk.injEq, beq_iff_eq, true_and]
        omega
      · have hrem' : remCount s' i a = remCount s i a := by
          unfold remCount
          rw [hset, List.getElem?_set_ne (fun e => hic e.symm)]
        have hne : ((j, b) == (i, a)) = false := by
          rw [beq_eq_false_iff_ne]
          intro h
          exact hic (congrArg Prod.fst h).symm
        rw [hne]
        have := ih s'
        rw [hrem'] at this
        simp only [Bool.false_eq_true, if_false]
        omega

theorem commitBlock_count (a : Act) : commitBlock.count a = 1 := by
  cases a <;> rfl

theorem taskProg_count (ds : List Bool) (a : Act) :
    (taskProg ds).count a = ds.count true := by
  induction ds with
  | nil => rfl
  | cons d ds ih =>
    cases d
    · simpa [taskProg, List.count_cons] using ih
    · simp [taskProg, List.count_append, commitBlock_count, ih,
        List.count_cons]
      omega

theorem remCount_init (dss : List (List Bool)) (t : Nat) (ds : List Bool)
    (ht : dss[t]? = some ds) (a : Act) :
    remCount (initSys dss) t a = ds.count true := by
  unfold remCount initSys
  dsimp only
  rw [List.getElem?_map, ht]
  simp [taskProg_count]

/-- C3 (amended): in any run of any set of concurrently scheduled file
tasks, at most one task is ever inside the write‑stage‑commit critical
section at a time; no other task's file write interleaves between one
task's disk write and its commit; and a complete run produces exactly one
commit — and exactly one write — per successfully updated CONTAINER (a
task's decided containers each contribute one commit, so a file with two
updated containers yields two commits, not one commit per file as
claimed). -/
theorem C3_critical_section_amended (dss : List (List Bool))
    (sched : List Nat) :
    (∀ i j : Nat, insideSection (runSched (initSys dss) sched).1 i →
        insideSection (runSched (initSys dss) sched).1 j → i = j) ∧
    noInterleavedWrite (runSched (initSys dss) sched).2 ∧
    ((runSched (initSys dss) sched).1.tasks.all List.isEmpty = true →
      ∀ (t : Nat) (ds : List Bool), dss[t]? = some ds →
        ((runSched (initSys dss) sched).2).count (t, Act.commit)
            = ds.count true ∧
          ((runSched (initSys dss) sched).2).count (t, Act.write)
            = ds.count true) := by
  have hinv := sysInv_run sched _ (sysInv_init dss)
  refine ⟨fun i j hi hj => mutex_of_inv _ hinv i j hi hj,
    noInterleave_of_inv sched _ (sysInv_init dss), ?_⟩
  intro hfin t ds ht
  have hrem : ∀ a : Act, remCount (runSched (initSys dss) sched).1 t a = 0 := by
    intro a
    unfold remCount
    cases hp : (runSched (initSys dss) sched).1.tasks[t]? with
    | none => rfl
    | some p =>
      have hmem : p ∈ (runSched (initSys dss) sched).1.tasks := by
        have hlen := lt_length_of_getElem?_eq_some _ _ _ hp
        have hg : (runSched (initSys dss) sched).1.tasks[t]? =
            some ((runSched (initSys dss) sched).1.tasks[t]) :=
          List.getElem?_eq_getElem hlen
        rw [hp] at hg
        rw [Option.some.inj hg]
        exact List.getElem_mem hlen
      have hemp := List.all_eq_true.mp hfin p hmem
      rw [List.isEmpty_iff] at hemp
      subst hemp
      rfl
  have hc := run_count sched (initSys dss) t Act.commit
  have hw := run_count sched (initSys dss) t Act.write
  rw [hrem Act.commit, remCount_init dss t ds ht Act.commit] at hc
  rw [hrem Act.write, remCount_init dss t ds ht Act.write] at hw
  exact ⟨by omega, by omega⟩

/-- C3 counterexample: a single file task with two decided containers runs
to completion, writes, and produces TWO commits — the run does not satisfy
"one commit per successfully updated file". -/
theorem C3_counterexample :
    (runSched sysC3 schedC3).1.tasks.all List.isEmpty = true ∧
    (0, Act.write) ∈ (runSched sysC3 schedC3).2 ∧
    (runSched sysC3 schedC3).2.count (0, Act.commit) = 2 ∧
    ¬ oneCommitPerUpdatedTask (runSched sysC3 schedC3).2 := by
  refine ⟨by decide, by decide, by decide, fun h => ?_⟩
  have h1 := h 0 (by decide)
  have h2 : (runSched sysC3 schedC3).2.count (0, Act.commit) = 2 := by decide
  rw [h2] at h1
  exact absurd h1 (by decide)

/-- C3 witness: two file tasks with one decided container each, scheduled
with an attempted interleaving (task 1 tries to acquire while task 0 is
inside the section), finish with exactly one commit and one write each. -/
theorem C3_witness :
    (runSched (initSys [[true], [true]])
        [0, 1, 0, 0, 0, 0, 1, 1, 1, 1, 1]).1.tasks.all List.isEmpty = true ∧
    ((runSched (initSys [[true], [true]])
        [0, 1, 0, 0, 0, 0, 1, 1, 1, 1, 1]).2).count (0, Act.commit) = 1 ∧
    ((runSched (initSys [[true], [true]])
        [0, 1, 0, 0, 0, 0, 1, 1, 1, 1, 1]).2).count (1, Act.commit) = 1 ∧
    ((runSched (initSys [[true], [true]])
        [0, 1, 0, 0, 0, 0, 1, 1, 1, 1, 1]).2).count (0, Act.write) = 1 :=
  ⟨by decide,
   ((C3_critical_section_amended [[true], [true]]
      [0, 1, 0, 0, 0, 0, 1, 1, 1, 1, 1]).2.2 (by decide) 0 [true] rfl).1,
   ((C3_critical_section_amended [[true], [true]]
      [0, 1, 0, 0, 0, 0, 1, 1, 1, 1, 1]).2.2 (by decide) 1 [true] rfl).1,
   ((C3_critical_section_amended [[true], [true]]
      [0, 1, 0, 0, 0, 0, 1, 1, 1, 1, 1]).2.2 (by decide) 0 [true] rfl).2⟩
